import Mathlib

/-!
# RXMesh dynamic mesh: slicing kernel and launch budget

A shallow embedding of `include/rxmesh/rxmesh_dynamic.h`:

* `detail::post_slicing_update_attributes` (attribute relocation after a slice),
* the `detail::slice_patches` kernel (trigger, patch-id reservation, relocation fold,
  debug validation),
* `RXMeshDynamic::prepare_launch_box` (scratch-memory budget),
* the host `RXMeshDynamic::slice_patches` (scratch size of the slicing launch),
* `RXMeshDynamic::is_queue_empty` and `reset_queue`, over a patch scheduler modelled from the
  specification.

Machine integers are natural numbers with an explicit reduction modulo `2^w` wherever the
source narrows or may overflow.  A thread block is a set of `blockThreads` threads whose
loop iterations interleave in an arbitrary order given by a schedule (a list of thread ids,
one entry per loop iteration).
-/

namespace rxmesh

/-! ## Machine integers -/

/-- Number of values of a `uint16_t`. -/
def U16 : Nat := 65536

/-- Number of values of a `uint32_t`. -/
def U32 : Nat := 4294967296

/-- Number of values of a `size_t` (64-bit device and host). -/
def SIZE_T : Nat := 18446744073709551616

/-! ## Data model -/

/-- The three handle types of mesh elements (`VertexHandle`, `EdgeHandle`, `FaceHandle`). -/
inductive HandleType where
  | VertexHandle
  | EdgeHandle
  | FaceHandle
  deriving DecidableEq, Repr

/-- A `Bitmask` seen through its `operator()(i)`: the value of bit `i`. -/
abbrev Bitmask := Nat → Bool

/-- The fields of `PatchInfo` read by `rxmesh_dynamic.h`.  The counts are the values behind
`num_vertices[0]`, `num_edges[0]`, `num_faces[0]`. -/
structure PatchInfo where
  patch_id : Nat
  num_vertices : Nat
  num_edges : Nat
  num_faces : Nat
  ev : Nat → Nat
  fe : Nat → Nat
  owned_mask_v : Bitmask
  owned_mask_e : Bitmask
  owned_mask_f : Bitmask
  active_mask_v : Bitmask
  active_mask_e : Bitmask
  active_mask_f : Bitmask

/-- The value `pi.get_num_elements<HandleT>()[0]` as stored in a `uint16_t`. -/
def PatchInfo.get_num_elements (pi : PatchInfo) : HandleType → Nat
  | .VertexHandle => pi.num_vertices % U16
  | .EdgeHandle => pi.num_edges % U16
  | .FaceHandle => pi.num_faces % U16

/-- The active mask of a patch for one element type. -/
def PatchInfo.active_mask (pi : PatchInfo) : HandleType → Bitmask
  | .VertexHandle => pi.active_mask_v
  | .EdgeHandle => pi.active_mask_e
  | .FaceHandle => pi.active_mask_f

/-- Modelled from the spec: `PatchInfo::is_deleted` is declared outside the given sources;
deletion only clears the active bit, so an element is deleted when its active bit is clear. -/
def PatchInfo.is_deleted (pi : PatchInfo) (h : HandleType) (i : Nat) : Bool :=
  !(pi.active_mask h i)

/-- An attribute array `AttributeT`: its `HandleType`, `get_num_attributes()` and the slots
`attribute(patch_id, local_id, attr)`. -/
structure Attribute (α : Type) where
  handle : HandleType
  num_attributes : Nat
  data : Nat → Nat → Nat → α

/-- The assignment `attribute(p, i, k) = x`. -/
def Attribute.write {α : Type} (a : Attribute α) (p i k : Nat) (x : α) : Attribute α :=
  { a with data := fun p' i' k' => if p' = p ∧ i' = i ∧ k' = k then x else a.data p' i' k' }

/-! ## `post_slicing_update_attributes` -/

/-- The `if constexpr` chain selecting the ownership-change mask of the handle type. -/
def ownership_change (h : HandleType) (ownership_change_v ownership_change_e
    ownership_change_f : Bitmask) : Bitmask :=
  match h with
  | .VertexHandle => ownership_change_v
  | .EdgeHandle => ownership_change_e
  | .FaceHandle => ownership_change_f

/-- The inner loop `for (attr = 0; attr < num_attr; ++attr)
attribute(new_patch_id, vp, attr) = attribute(patch_id, vp, attr)`. -/
def copy_attributes {α : Type} (patch_id new_patch_id vp : Nat) (a : Attribute α) :
    Attribute α :=
  (List.range a.num_attributes).foldl
    (fun acc attr => acc.write new_patch_id vp attr (acc.data patch_id vp attr)) a

/-- The state of a block running the strided loop: the `uint16_t` loop counter of every
thread (`none` once the thread has left the loop) and the attribute array. -/
structure LoopState (α : Type) where
  vp : Nat → Option Nat
  attrib : Attribute α

/-- The counter update `vp += blockThreads` on a `uint16_t`. -/
def next_vp (blockThreads vp : Nat) : Nat := (vp + blockThreads) % U16

/-- One loop iteration of thread `t`: test `vp < num_elements`; leave the loop when it
fails, otherwise run the body at `vp` and advance the counter. -/
def post_slicing_thread_step {α : Type} (blockThreads num_elements patch_id new_patch_id : Nat)
    (change : Bitmask) (t : Nat) (s : LoopState α) : LoopState α :=
  match s.vp t with
  | none => s
  | some vp =>
    if vp < num_elements then
      { vp := Function.update s.vp t (some (next_vp blockThreads vp))
        attrib :=
          if change vp = true then copy_attributes patch_id new_patch_id vp s.attrib
          else s.attrib }
    else
      { s with vp := Function.update s.vp t none }

/-- Loop entry: thread `t` of the block starts with `uint16_t vp = threadIdx.x`. -/
def post_slicing_init {α : Type} (blockThreads : Nat) (a : Attribute α) : LoopState α :=
  { vp := fun t => if t < blockThreads then some (t % U16) else none
    attrib := a }

/-- Run the loop iterations in the order given by the schedule. -/
def post_slicing_run {α : Type} (blockThreads num_elements patch_id new_patch_id : Nat)
    (change : Bitmask) (sched : List Nat) (s : LoopState α) : LoopState α :=
  sched.foldl
    (fun st t => post_slicing_thread_step blockThreads num_elements patch_id new_patch_id
      change t st) s

/-- Every thread of the block has left the loop. -/
def all_threads_done {α : Type} (blockThreads : Nat) (s : LoopState α) : Bool :=
  (List.range blockThreads).all (fun t => (s.vp t).isNone)

/-- The device function `post_slicing_update_attributes<blockThreads>` executed by a whole
block under the interleaving `sched`.  The result is the attribute array once every thread
has returned, and `none` when the schedule ends with a thread still inside the loop. -/
def post_slicing_update_attributes {α : Type} (blockThreads : Nat) (sched : List Nat)
    (pi : PatchInfo) (new_patch_id : Nat)
    (ownership_change_v ownership_change_e ownership_change_f : Bitmask)
    (attrib : Attribute α) : Option (Attribute α) :=
  let num_elements := pi.get_num_elements attrib.handle
  let patch_id := pi.patch_id
  let change :=
    ownership_change attrib.handle ownership_change_v ownership_change_e ownership_change_f
  let s := post_slicing_run blockThreads num_elements patch_id new_patch_id change sched
    (post_slicing_init blockThreads attrib)
  if all_threads_done blockThreads s then some s.attrib else none

/-- The relocation in closed form: the slots `(new_patch_id, vp, attr)` of the elements
whose ownership-change bit is set receive the value of the original patch; every other slot
is kept. -/
def relocated {α : Type} (num_elements patch_id new_patch_id : Nat) (change : Bitmask)
    (a : Attribute α) : Attribute α :=
  { a with
    data := fun p i k =>
      if p = new_patch_id ∧ i < num_elements ∧ change i = true ∧ k < a.num_attributes then
        a.data patch_id i k
      else a.data p i k }

/-- The sequential schedule: thread `0` runs its whole loop, then thread `1`, and so on;
`iterations` loop iterations are granted to each thread. -/
def sequential_schedule (blockThreads iterations : Nat) : List Nat :=
  (List.range blockThreads).flatMap (fun t => List.replicate iterations t)

/-! ## Invariants of the relocation loop -/

/-- Every slot of the running array holds its initial value or, when it is a slot the
relocation writes, the initial value of the original patch. -/
def RelocInv {α : Type} (num_elements patch_id new_patch_id : Nat) (change : Bitmask)
    (a0 a : Attribute α) : Prop :=
  a.handle = a0.handle ∧ a.num_attributes = a0.num_attributes ∧
    ∀ p i k, a.data p i k = a0.data p i k ∨
      (p = new_patch_id ∧ i < num_elements ∧ change i = true ∧ k < a0.num_attributes ∧
        a.data p i k = a0.data patch_id i k)

/-- Element `i` has been relocated: all its attributes in the new patch hold the initial
values of the original patch. -/
def ElementDone {α : Type} (patch_id new_patch_id : Nat) (a0 a : Attribute α) (i : Nat) :
    Prop :=
  ∀ k, k < a0.num_attributes → a.data new_patch_id i k = a0.data patch_id i k

/-- Progress of thread `t`: either it is on its first sweep, at a counter congruent to `t`,
with every smaller index of its residue class relocated, or its whole residue class is
relocated. -/
def ThreadInv {α : Type} (blockThreads num_elements patch_id new_patch_id : Nat)
    (change : Bitmask) (a0 : Attribute α) (t : Nat) (s : LoopState α) : Prop :=
  (∃ v, s.vp t = some v ∧ v % blockThreads = t ∧
      ∀ i, i < num_elements → i % blockThreads = t → i < v → change i = true →
        ElementDone patch_id new_patch_id a0 s.attrib i) ∨
    (∀ i, i < num_elements → i % blockThreads = t → change i = true →
        ElementDone patch_id new_patch_id a0 s.attrib i)

/-- The number of loop iterations thread `t` still needs at most, when its counter cannot
wrap: none once it has left the loop, otherwise one per remaining index and one for the
failing loop test. -/
def loop_potential {α : Type} (num_elements : Nat) (s : LoopState α) (t : Nat) : Nat :=
  match s.vp t with
  | none => 0
  | some vp => num_elements - vp + 1

/-! ## `RXMeshDynamic::prepare_launch_box` -/

/-- Constants and helpers of the library that `rxmesh_dynamic.h` uses and that are declared
in other headers: `ShmemAllocator::default_alignment`, `sizeof(LPPair)`,
`PatchStash::stash_size` and `detail::mask_num_bytes`. -/
structure Platform where
  default_alignment : Nat
  sizeof_LPPair : Nat
  stash_size : Nat
  mask_num_bytes : Nat → Nat

/-- The members of the mesh read by `prepare_launch_box` and by the host `slice_patches`.
`capacity n` stands for the float product `m_capacity_factor * static_cast<float>(n)`
converted to an integer; `max_lp_hashtable_capacity` is the member template of that name,
indexed by the element type. -/
structure RXMeshDynamic where
  m_num_patches : Nat
  m_max_vertices_per_patch : Nat
  m_max_edges_per_patch : Nat
  m_max_faces_per_patch : Nat
  capacity : Nat → Nat
  max_lp_hashtable_capacity : HandleType → Nat

/-- The two fields of `LaunchBox` that `prepare_launch_box` computes itself. -/
structure LaunchBox where
  blocks : Nat
  smem_bytes_dyn : Nat
  deriving DecidableEq, Repr

/-- The loop `for (auto o : op) static_shmem = std::max(static_shmem, calc_shared_memory(o,
oriented))`, starting from `0`; `calc_shared_memory o oriented` is the `size_t` returned
by the member function of that name, which is declared in another header. -/
def static_shmem {Op : Type} (calc_shared_memory : Op → Bool → Nat) (op : List Op)
    (oriented : Bool) : Nat :=
  op.foldl (fun acc o => max acc (calc_shared_memory o oriented)) 0

/-- The accumulation of `dyn_shmem` (lines 380-434), a `size_t` sum.  The reduction modulo
`2^64` is taken once at the end, which gives the same value as reducing after each `+=`. -/
def dyn_shmem (P : Platform) (m : RXMeshDynamic) : Nat :=
  let vertex_cap := m.capacity m.m_max_vertices_per_patch % U16
  let edge_cap := m.capacity m.m_max_edges_per_patch % U16
  let face_cap := m.capacity m.m_max_faces_per_patch % U16
  -- to load EV and FE
  let d := 3 * face_cap * 2 + 2 * edge_cap * 2 + 2 * P.default_alignment
  -- cavity ID
  let d := d + max (vertex_cap * 2) (m.max_lp_hashtable_capacity .VertexHandle * P.sizeof_LPPair)
  let d := d + max (edge_cap * 2) (m.max_lp_hashtable_capacity .EdgeHandle * P.sizeof_LPPair)
  let d := d + max (face_cap * 2) (m.max_lp_hashtable_capacity .FaceHandle * P.sizeof_LPPair)
  let d := d + 3 * P.default_alignment
  -- cavity loop
  let d := d + (m.m_max_edges_per_patch * 2 + P.default_alignment)
  -- store number of cavities and patches to lock
  let d := d + (3 * 4 + P.default_alignment)
  -- store cavity size
  let d := d + ((m.m_max_faces_per_patch / 2) * 4 + P.default_alignment)
  -- bitmasks
  let d := d + (10 * P.mask_num_bytes vertex_cap + 10 * P.default_alignment)
  let d := d + (7 * P.mask_num_bytes edge_cap + 7 * P.default_alignment)
  let d := d + (5 * P.mask_num_bytes face_cap + 5 * P.default_alignment)
  -- patch stash
  let d := d + P.stash_size * 4
  d % SIZE_T

/-- The launch box populated by `prepare_launch_box`: `blocks = m_num_patches` and
`smem_bytes_dyn = std::max(dyn_shmem, static_shmem)`. -/
def prepare_launch_box {Op : Type} (P : Platform) (m : RXMeshDynamic)
    (calc_shared_memory : Op → Bool → Nat) (op : List Op) (oriented : Bool) : LaunchBox :=
  { blocks := m.m_num_patches
    smem_bytes_dyn := max (dyn_shmem P m) (static_shmem calc_shared_memory op oriented) }

/-! ## The `slice_patches` kernel -/

/-- The device context: the value behind `context.m_num_patches`, the fixed
`m_max_num_patches`, and the patch table `m_patches_info`. -/
structure Context where
  m_num_patches : Nat
  m_max_num_patches : Nat
  m_patches_info : Nat → PatchInfo

/-- The operation `atomicAdd(address, val)` on a `uint32_t`: the old value is returned, the
sum modulo `2^32` is stored. -/
def atomicAdd (old val : Nat) : Nat × Nat := (old, (old + val) % U32)

/-- One bitmask per element type. -/
structure Masks where
  v : Bitmask
  e : Bitmask
  f : Bitmask

/-- Modelled from the spec: `bi_assignment` and `slice` are declared in the source and
defined elsewhere.  `bi_assignment` derives the assignment masks from the patch as loaded
at kernel entry.  `slice` transfers ownership: it rewrites the patch table, may update the
kernel-local `PatchInfo`, and leaves the ownership-change masks; the atomic increment of
the kernel is the only update of the patch counter, so `slice` does not touch it. -/
structure SliceSteps where
  bi_assignment : PatchInfo → Masks
  slice : (Nat → PatchInfo) → PatchInfo → Nat → Masks → (Nat → PatchInfo) × PatchInfo × Masks

/-- The outcome of lines 151-155: the value written to `s_new_patch_id`, the context after
the atomic increment, and whether `assert(s_new_patch_id < m_max_num_patches)` holds. -/
structure Reservation where
  s_new_patch_id : Nat
  context : Context
  assert_ok : Bool

/-- Lines 151-155: `s_new_patch_id = atomicAdd(context.m_num_patches, 1)` followed by the
assertion. -/
def reserve_patch_id (context : Context) : Reservation :=
  let r := atomicAdd context.m_num_patches 1
  { s_new_patch_id := r.1
    context := { context with m_num_patches := r.2 }
    assert_ok := decide (r.1 < context.m_max_num_patches) }

/-- The fold `(post_slicing_update_attributes(pi, s_new_patch_id, v, e, f, attributes), ...)`
over the attribute pack, one interleaving per call.  Value types of the pack are embedded
in one type `α`. -/
def relocate_attributes {α : Type} (blockThreads : Nat) (pi : PatchInfo) (new_patch_id : Nat)
    (change : Masks) : List (List Nat) → List (Attribute α) → Option (List (Attribute α))
  | _, [] => some []
  | scheds, a :: rest =>
    match post_slicing_update_attributes blockThreads (scheds.headD []) pi new_patch_id
        change.v change.e change.f a with
    | none => none
    | some a' =>
      match relocate_attributes blockThreads pi new_patch_id change scheds.tail rest with
      | none => none
      | some rest' => some (a' :: rest')

/-- What a block of the kernel leaves behind: the context, the attribute arrays, the shared
variable `s_new_patch_id` (`none` when the block never writes it) and the value of the
assertion on it. -/
structure BlockResult (α : Type) where
  context : Context
  attributes : List (Attribute α)
  s_new_patch_id : Option Nat
  assert_ok : Bool

/-- The kernel `detail::slice_patches` as run by block `pid`: the early return, the
threshold test, the reservation of the new patch id, `bi_assignment`, `slice` and the
relocation fold.  `none` when a relocation loop does not return under the given
interleavings.  The debug validation that ends the kernel writes nothing; it is
`debug_validation_thread` below. -/
def slice_patches_block {α : Type} (steps : SliceSteps) (blockThreads : Nat)
    (scheds : List (List Nat)) (context : Context)
    (current_num_patches num_faces_threshold : Nat) (attributes : List (Attribute α))
    (pid : Nat) : Option (BlockResult α) :=
  if pid ≥ current_num_patches then
    some { context := context, attributes := attributes, s_new_patch_id := none,
           assert_ok := true }
  else
    let pi := context.m_patches_info pid
    let num_faces := pi.num_faces % U16
    if num_faces ≥ num_faces_threshold then
      let r := reserve_patch_id context
      let assigned := steps.bi_assignment pi
      let sliced := steps.slice r.context.m_patches_info pi r.s_new_patch_id assigned
      match relocate_attributes blockThreads sliced.2.1 r.s_new_patch_id sliced.2.2 scheds
          attributes with
      | none => none
      | some attributes' =>
        some { context := { r.context with m_patches_info := sliced.1 }
               attributes := attributes'
               s_new_patch_id := some r.s_new_patch_id
               assert_ok := r.assert_ok }
    else
      some { context := context, attributes := attributes, s_new_patch_id := none,
             assert_ok := true }

/-! ## Debug validation (lines 271-315) -/

/-- The two assertions of one loop iteration: `assert(is_active_p || is_active_new)` when
the element was active, `assert(!is_active_p && !is_active_new)` otherwise. -/
def validation_check (was_active is_active_p is_active_new : Bool) : Bool :=
  if was_active then is_active_p || is_active_new else !is_active_p && !is_active_new

/-- How a thread stands in the validation: it went through its loops, an assertion failed,
or it is still inside a loop when the iteration budget is used up. -/
inductive CheckResult where
  | passed
  | assert_failed
  | running
  deriving DecidableEq, Repr

/-- One strided validation loop of a thread, from counter `v`, with at most `fuel`
evaluations of the loop condition. -/
def validation_loop (blockThreads num_elements : Nat) (was_active is_active_p
    is_active_new : Bitmask) : Nat → Nat → CheckResult
  | 0, _ => .running
  | fuel + 1, v =>
    if v < num_elements then
      if validation_check (was_active v) (is_active_p v) (is_active_new v) then
        validation_loop blockThreads num_elements was_active is_active_p is_active_new fuel
          (next_vp blockThreads v)
      else .assert_failed
    else .passed

/-- The validation loop of one element type: the counts and `s_active` masks are those of
the patch as loaded at kernel entry, the activity after the slice is read from the patch
table through `is_deleted`. -/
def validation_loop_of (blockThreads : Nat) (before after_p after_new : PatchInfo)
    (h : HandleType) (fuel t : Nat) : CheckResult :=
  validation_loop blockThreads (before.get_num_elements h) (before.active_mask h)
    (fun i => !after_p.is_deleted h i) (fun i => !after_new.is_deleted h i) fuel (t % U16)

/-- The three validation loops as run by thread `t`: vertices, then edges, then faces, each
with `fuel` evaluations of its loop condition. -/
def debug_validation_thread (blockThreads : Nat) (before after_p after_new : PatchInfo)
    (fuel t : Nat) : CheckResult :=
  match validation_loop_of blockThreads before after_p after_new .VertexHandle fuel t with
  | .passed =>
    match validation_loop_of blockThreads before after_p after_new .EdgeHandle fuel t with
    | .passed => validation_loop_of blockThreads before after_p after_new .FaceHandle fuel t
    | r => r
  | r => r

/-- The validation passes: every thread of the block goes through its three loops without
a failed assertion. -/
def validation_passes (blockThreads : Nat) (before after_p after_new : PatchInfo) : Prop :=
  ∀ t, t < blockThreads →
    ∃ fuel, debug_validation_thread blockThreads before after_p after_new fuel t = .passed

/-- An assertion of the validation fails in some thread of the block. -/
def validation_fails (blockThreads : Nat) (before after_p after_new : PatchInfo) : Prop :=
  ∃ t, t < blockThreads ∧
    ∃ fuel, debug_validation_thread blockThreads before after_p after_new fuel t =
      .assert_failed

/-- What the assertions check for one element type: an element that was active is active
in the original or in the new patch, an element that was inactive is inactive in both. -/
def ActivityKept (before after_p after_new : PatchInfo) (h : HandleType) : Prop :=
  ∀ i, i < before.get_num_elements h →
    (before.active_mask h i = true →
      after_p.active_mask h i = true ∨ after_new.active_mask h i = true) ∧
    (before.active_mask h i = false →
      after_p.active_mask h i = false ∧ after_new.active_mask h i = false)

/-- Invariant 3 of the spec for one element type: an element that was active is active in
exactly one of the two patches, an element that was inactive is inactive in both. -/
def ActivityPartition (before after_p after_new : PatchInfo) (h : HandleType) : Prop :=
  ∀ i, i < before.get_num_elements h →
    (before.active_mask h i = true →
      (after_p.active_mask h i = true ∧ after_new.active_mask h i = false) ∨
      (after_p.active_mask h i = false ∧ after_new.active_mask h i = true)) ∧
    (before.active_mask h i = false →
      after_p.active_mask h i = false ∧ after_new.active_mask h i = false)

/-! ## One slicing pass -/

/-- A patch with the given id, counts and active masks; every element is owned. -/
def mk_patch (patch_id num_vertices num_edges num_faces : Nat) (active_v active_e
    active_f : Bitmask) : PatchInfo :=
  { patch_id := patch_id, num_vertices := num_vertices, num_edges := num_edges,
    num_faces := num_faces, ev := fun _ => 0, fe := fun _ => 0,
    owned_mask_v := fun _ => true, owned_mask_e := fun _ => true,
    owned_mask_f := fun _ => true,
    active_mask_v := active_v, active_mask_e := active_e, active_mask_f := active_f }

/-- A patch `0` with 5 vertices, 7 edges and 3 faces, all active. -/
def patch_5_7_3 : PatchInfo :=
  mk_patch 0 5 7 3 (fun _ => true) (fun _ => true) (fun _ => true)

/-- A vertex array with two attributes per vertex, filled for patch `0` only. -/
def vertex_attr : Attribute Nat :=
  { handle := .VertexHandle, num_attributes := 2,
    data := fun p i k => if p = 0 then 100 + 10 * i + k else 0 }

/-- A face array with one attribute per face, filled for patch `0` only. -/
def face_attr : Attribute Nat :=
  { handle := .FaceHandle, num_attributes := 1,
    data := fun p i _ => if p = 0 then 500 + i else 0 }

/-- Ownership-change masks: the even vertices, no edge, every face. -/
def even_masks : Masks :=
  { v := fun i => i % 2 == 0, e := fun _ => false, f := fun _ => true }

/-- Slice steps for the examples: the even vertices and every face are assigned to the new
patch, and the new patch is entered in the patch table as a copy of the original one. -/
def copy_steps : SliceSteps :=
  { bi_assignment := fun _ => even_masks
    slice := fun patches pi new_patch_id assigned =>
      (Function.update patches new_patch_id { pi with patch_id := new_patch_id }, pi,
        assigned) }

/-- A mesh of one patch with the given number of faces; the patch counter is `1` and room
is provisioned for `max_num_patches` patches. -/
def one_patch_context (num_faces max_num_patches : Nat) : Context :=
  { m_num_patches := 1
    m_max_num_patches := max_num_patches
    m_patches_info := fun _ =>
      mk_patch 0 5 7 num_faces (fun _ => true) (fun _ => true) (fun _ => true) }

/-- The patch `patch_5_7_3` after a slice that lost face 1: the face is inactive. -/
def patch_lost_face : PatchInfo :=
  mk_patch 0 5 7 3 (fun _ => true) (fun _ => true) (fun i => i != 1)

/-- A new patch in which nothing is active. -/
def patch_empty : PatchInfo :=
  mk_patch 1 5 7 3 (fun _ => false) (fun _ => false) (fun _ => false)

/-- A platform with 8-byte alignment, 4-byte hash-table pairs, a stash of 64 entries and
bitmasks stored in 32-bit words. -/
def platform_8 : Platform :=
  { default_alignment := 8, sizeof_LPPair := 4, stash_size := 64,
    mask_num_bytes := fun n => 4 * ((n + 31) / 32) }

/-- A mesh of three patches with capacity factor two. -/
def small_mesh : RXMeshDynamic :=
  { m_num_patches := 3, m_max_vertices_per_patch := 100, m_max_edges_per_patch := 300,
    m_max_faces_per_patch := 200, capacity := fun n => 2 * n,
    max_lp_hashtable_capacity := fun _ => 512 }

/-- A per-operation footprint for operations numbered by naturals. -/
def footprint : Nat → Bool → Nat := fun o _ => 4000 * o

/-! ## The strided loop of one thread -/

/-- The `uint16_t` counter of a thread after `fuel` evaluations of the loop test
`vp < num_elements`, each passed test being followed by `vp += blockThreads`; `none` once a
test has failed and the thread has left the loop. -/
def thread_counter (blockThreads num_elements : Nat) : Nat → Nat → Option Nat
  | 0, vp => some vp
  | fuel + 1, vp =>
    if vp < num_elements then
      thread_counter blockThreads num_elements fuel (next_vp blockThreads vp)
    else none

/-- The local indices at which a thread runs the loop body, in order, during its first
`fuel` evaluations of the loop test, starting from counter `vp`. -/
def thread_indices (blockThreads num_elements : Nat) : Nat → Nat → List Nat
  | 0, _ => []
  | fuel + 1, vp =>
    if vp < num_elements then
      vp :: thread_indices blockThreads num_elements fuel (next_vp blockThreads vp)
    else []

/-- The indices handled by worker `t` of the block (`uint16_t vp = threadIdx.x` at loop
entry) during its first `fuel` evaluations of the loop test. -/
def worker_indices (blockThreads num_elements fuel t : Nat) : List Nat :=
  thread_indices blockThreads num_elements fuel (t % U16)

/-- The work partition of a block of `blockThreads` workers over `num_elements` indices:
worker `t` handles exactly the indices `vp < num_elements` with `vp mod blockThreads = t`,
no index is handled by two distinct workers, and every index below the count is handled by
some worker. -/
def WorkPartition (blockThreads num_elements : Nat) : Prop :=
  (∀ t i, t < blockThreads →
    ((∃ fuel, i ∈ worker_indices blockThreads num_elements fuel t) ↔
      (i < num_elements ∧ i % blockThreads = t))) ∧
  (∀ t u i fuel fuel', t < blockThreads → u < blockThreads → t ≠ u →
    i ∈ worker_indices blockThreads num_elements fuel t →
    i ∉ worker_indices blockThreads num_elements fuel' u) ∧
  (∀ i, i < num_elements →
    ∃ t, t < blockThreads ∧ ∃ fuel, i ∈ worker_indices blockThreads num_elements fuel t)

/-! ## Scratch memory of the slicing launch -/

/-- Modelled from the spec: `ShmemAllocator::alloc` is declared in another header; a
sub-allocation takes its size rounded up to the next multiple of
`ShmemAllocator::default_alignment`. -/
def align_up (P : Platform) (num_bytes : Nat) : Nat :=
  (num_bytes + P.default_alignment - 1) / P.default_alignment * P.default_alignment

/-- The sizes in bytes of the 18 sub-allocations of the slicing kernel, in program order
(lines 163-204): `s_ev` (`2 * num_edges` entries of 16 bits), `s_fe` (`3 * num_faces`
entries of 16 bits), the stash (`stash_size` entries of 32 bits) and the five bitmasks
`owned`, `active`, `new_active`, `patch`, `ribbon` of `alloc_masks` for vertices, edges and
faces. -/
def slice_patches_allocations (P : Platform) (pi : PatchInfo) : List Nat :=
  let num_vertices := pi.get_num_elements .VertexHandle
  let num_edges := pi.get_num_elements .EdgeHandle
  let num_faces := pi.get_num_elements .FaceHandle
  [(2 * num_edges) * 2, (3 * num_faces) * 2, P.stash_size * 4] ++
    List.replicate 5 (P.mask_num_bytes num_vertices) ++
    List.replicate 5 (P.mask_num_bytes num_edges) ++
    List.replicate 5 (P.mask_num_bytes num_faces)

/-- The scratch memory the slicing kernel takes for a patch: the sum of its sub-allocations,
each rounded up to the alignment. -/
def slice_patches_kernel_shmem (P : Platform) (pi : PatchInfo) : Nat :=
  ((slice_patches_allocations P pi).map (align_up P)).sum

/-- The sum computed by the host `RXMeshDynamic::slice_patches` (lines 504-520), before it is
stored in the `uint32_t dyn_shmem`. -/
def slice_patches_requested (P : Platform) (m : RXMeshDynamic) : Nat :=
  -- ev, fe
  let d := 2 * P.default_alignment + (3 * m.m_max_faces_per_patch) * 2 +
    (2 * m.m_max_edges_per_patch) * 2
  -- active_v/e/f, owned_v/e/f, patch_v/e/f
  let d := d + (5 * P.mask_num_bytes m.m_max_vertices_per_patch + 5 * P.default_alignment)
  let d := d + (5 * P.mask_num_bytes m.m_max_edges_per_patch + 5 * P.default_alignment)
  let d := d + (5 * P.mask_num_bytes m.m_max_faces_per_patch + 5 * P.default_alignment)
  d + P.stash_size * 4

/-- The `uint32_t dyn_shmem` that the host `RXMeshDynamic::slice_patches` passes to the
launch: the sum reduced modulo `2^32` (reducing the intermediate `uint32_t` products as
well gives the same value). -/
def slice_patches_dyn_shmem (P : Platform) (m : RXMeshDynamic) : Nat :=
  slice_patches_requested P m % U32

/-! ## The patch scheduler -/

/-- Modelled from the spec: `PatchScheduler` (the member `m_patch_scheduler` of the context)
is declared in another header.  It holds the patch ids currently marked live and the ids
currently enqueued. -/
structure PatchScheduler where
  live : List Nat
  queue : List Nat

/-- Modelled from the spec: `PatchScheduler::refill` resets the queue to contain all
currently-live patch ids. -/
def PatchScheduler.refill (s : PatchScheduler) : PatchScheduler :=
  { s with queue := s.live }

/-- Modelled from the spec: `PatchScheduler::is_empty` polls whether an id is enqueued. -/
def PatchScheduler.is_empty (s : PatchScheduler) : Bool :=
  s.queue.isEmpty

/-- Modelled from the spec: one atomic `dequeue` of `PatchScheduler`.  The queue gives no
ordering guarantee, so the delivered id is any enqueued one, selected by `pick`; nothing is
delivered from an empty queue. -/
def PatchScheduler.dequeue (s : PatchScheduler) (pick : Nat) : Option Nat × PatchScheduler :=
  match s.queue[pick % s.queue.length]? with
  | none => (none, s)
  | some id => (some id, { s with queue := s.queue.eraseIdx (pick % s.queue.length) })

/-- The host poll `RXMeshDynamic::is_queue_empty`, which forwards to the scheduler. -/
def is_queue_empty (s : PatchScheduler) : Bool :=
  s.is_empty

/-- The host call `RXMeshDynamic::reset_queue`, which forwards to `refill`. -/
def reset_queue (s : PatchScheduler) : PatchScheduler :=
  s.refill

/-- A pass of concurrent consumers: the `dequeue` calls are atomic and take effect in the
order of the list, each entry naming the consumer and the pick of the call.  The result is
the log of deliveries `(consumer, patch id)` and the scheduler afterwards. -/
def consume : List (Nat × Nat) → PatchScheduler → List (Nat × Nat) × PatchScheduler
  | [], s => ([], s)
  | (consumer, pick) :: rest, s =>
    match s.dequeue pick with
    | (none, s') => consume rest s'
    | (some id, s') =>
      let out := consume rest s'
      ((consumer, id) :: out.1, out.2)

/-! ## Concrete inputs for the loops, the launch and the scheduler -/

/-- A patch with 65535 vertices, all active, and no edge or face. -/
def patch_65535 : PatchInfo :=
  mk_patch 0 65535 0 0 (fun _ => true) (fun _ => true) (fun _ => true)

/-- A mesh whose per-patch maxima are those of `patch_5_7_3`. -/
def mesh_5_7_3 : RXMeshDynamic :=
  { m_num_patches := 1, m_max_vertices_per_patch := 5, m_max_edges_per_patch := 7,
    m_max_faces_per_patch := 3, capacity := fun n => 2 * n,
    max_lp_hashtable_capacity := fun _ => 512 }

/-- A patch with 65535 vertices, no edge and 3 faces, all active. -/
def patch_65535_faces : PatchInfo :=
  mk_patch 0 65535 0 3 (fun _ => true) (fun _ => true) (fun _ => true)

/-- An edge array with one attribute per edge, filled for patch `0` only. -/
def edge_attr : Attribute Nat :=
  { handle := .EdgeHandle, num_attributes := 1,
    data := fun p i _ => if p = 0 then 300 + i else 0 }

/-- Ownership-change masks that differ per element type: vertices 2 and 6, edge 6, faces 1
and 4. -/
def type_masks : Masks :=
  { v := fun i => i == 2 || i == 6, e := fun i => i == 6, f := fun i => i == 1 || i == 4 }

/-- A scheduler of a mesh whose live patches are `0, 1, 2`, with an empty queue. -/
def scheduler_3 : PatchScheduler :=
  { live := [0, 1, 2], queue := [] }

end rxmesh

namespace rxmesh

/-! ## Relocation: the loop body -/

theorem copy_attributes_fold {α : Type} (patch_id new_patch_id vp : Nat) (a : Attribute α)
    (m : Nat) :
    let r := (List.range m).foldl
      (fun acc attr => acc.write new_patch_id vp attr (acc.data patch_id vp attr)) a
    r.handle = a.handle ∧ r.num_attributes = a.num_attributes ∧
      ∀ p i k, r.data p i k =
        if p = new_patch_id ∧ i = vp ∧ k < m then a.data patch_id vp k else a.data p i k := by
  induction m with
  | zero => simp
  | succ m ih =>
    simp only [List.range_succ, List.foldl_append, List.foldl_cons, List.foldl_nil]
    obtain ⟨h1, h2, h3⟩ := ih
    generalize (List.range m).foldl
      (fun acc attr => acc.write new_patch_id vp attr (acc.data patch_id vp attr)) a = r at h1 h2 h3
    refine ⟨h1, h2, ?_⟩
    intro p i k
    simp only [Attribute.write]
    rw [h3, h3]
    by_cases hp : p = new_patch_id
    · by_cases hi : i = vp
      · by_cases hk : k = m
        · subst hk
          simp [hp, hi]
        · have : k < m + 1 ↔ k < m := by omega
          simp [hp, hi, hk, this]
      · simp [hp, hi]
    · simp [hp]

theorem copy_attributes_handle {α : Type} (patch_id new_patch_id vp : Nat) (a : Attribute α) :
    (copy_attributes patch_id new_patch_id vp a).handle = a.handle :=
  (copy_attributes_fold patch_id new_patch_id vp a a.num_attributes).1

theorem copy_attributes_num {α : Type} (patch_id new_patch_id vp : Nat) (a : Attribute α) :
    (copy_attributes patch_id new_patch_id vp a).num_attributes = a.num_attributes :=
  (copy_attributes_fold patch_id new_patch_id vp a a.num_attributes).2.1

theorem copy_attributes_data {α : Type} (patch_id new_patch_id vp : Nat) (a : Attribute α)
    (p i k : Nat) :
    (copy_attributes patch_id new_patch_id vp a).data p i k =
      if p = new_patch_id ∧ i = vp ∧ k < a.num_attributes then a.data patch_id vp k
      else a.data p i k :=
  (copy_attributes_fold patch_id new_patch_id vp a a.num_attributes).2.2 p i k

/-! ## Relocation: invariants -/

theorem relocInv_source_kept {α : Type} {n pid new : Nat} {change : Bitmask}
    {a0 a : Attribute α} (h : RelocInv n pid new change a0 a) (i k : Nat) :
    a.data pid i k = a0.data pid i k := by
  rcases h.2.2 pid i k with h1 | ⟨_, _, _, _, h1⟩ <;> exact h1

theorem relocInv_copy {α : Type} {n pid new : Nat} {change : Bitmask}
    {a0 a : Attribute α} (h : RelocInv n pid new change a0 a) (v : Nat) (hv : v < n)
    (hc : change v = true) :
    RelocInv n pid new change a0 (copy_attributes pid new v a) := by
  refine ⟨?_, ?_, ?_⟩
  · rw [copy_attributes_handle]; exact h.1
  · rw [copy_attributes_num]; exact h.2.1
  · intro p i k
    rw [copy_attributes_data]
    split
    · rename_i hc1
      obtain ⟨hp, hi, hk⟩ := hc1
      right
      subst hp hi
      exact ⟨rfl, hv, hc, h.2.1 ▸ hk, relocInv_source_kept h i k⟩
    · exact h.2.2 p i k

theorem elementDone_copy {α : Type} {n pid new : Nat} {change : Bitmask}
    {a0 a : Attribute α} (h : RelocInv n pid new change a0 a) (v i : Nat)
    (hd : ElementDone pid new a0 a i) :
    ElementDone pid new a0 (copy_attributes pid new v a) i := by
  intro k hk
  rw [copy_attributes_data]
  split
  · rename_i hc1
    obtain ⟨_, hi, _⟩ := hc1
    subst hi
    exact relocInv_source_kept h i k
  · exact hd k hk

theorem elementDone_of_copy {α : Type} {n pid new : Nat} {change : Bitmask}
    {a0 a : Attribute α} (h : RelocInv n pid new change a0 a) (v : Nat) :
    ElementDone pid new a0 (copy_attributes pid new v a) v := by
  intro k hk
  rw [copy_attributes_data, if_pos ⟨rfl, rfl, h.2.1 ▸ hk⟩]
  exact relocInv_source_kept h v k

/-- What one loop iteration does to the attribute array and to the counters. -/
theorem post_slicing_thread_step_cases {α : Type} (B n pid new : Nat) (change : Bitmask)
    (t : Nat) (s : LoopState α) :
    (s.vp t = none ∧ post_slicing_thread_step B n pid new change t s = s) ∨
    (∃ v, s.vp t = some v ∧ ¬ v < n ∧
      post_slicing_thread_step B n pid new change t s =
        { s with vp := Function.update s.vp t none }) ∨
    (∃ v, s.vp t = some v ∧ v < n ∧ change v = false ∧
      post_slicing_thread_step B n pid new change t s =
        { s with vp := Function.update s.vp t (some (next_vp B v)) }) ∨
    (∃ v, s.vp t = some v ∧ v < n ∧ change v = true ∧
      post_slicing_thread_step B n pid new change t s =
        { vp := Function.update s.vp t (some (next_vp B v))
          attrib := copy_attributes pid new v s.attrib }) := by
  unfold post_slicing_thread_step
  cases hv : s.vp t with
  | none => left; simp
  | some v =>
    right
    by_cases hlt : v < n
    · cases hc : change v with
      | false => right; left; exact ⟨v, rfl, hlt, hc, by simp [hlt, hc]⟩
      | true => right; right; exact ⟨v, rfl, hlt, hc, by simp [hlt, hc]⟩
    · left; exact ⟨v, rfl, hlt, by simp [hlt]⟩

theorem relocInv_step {α : Type} {B n pid new : Nat} {change : Bitmask}
    {a0 : Attribute α} (t : Nat) {s : LoopState α}
    (h : RelocInv n pid new change a0 s.attrib) :
    RelocInv n pid new change a0 (post_slicing_thread_step B n pid new change t s).attrib := by
  rcases post_slicing_thread_step_cases B n pid new change t s with
    ⟨_, e⟩ | ⟨v, _, _, e⟩ | ⟨v, _, _, _, e⟩ | ⟨v, _, hv, hc, e⟩
  all_goals rw [e]
  · exact h
  · exact h
  · exact h
  · exact relocInv_copy h v hv hc

theorem elementDone_step {α : Type} {B n pid new : Nat} {change : Bitmask}
    {a0 : Attribute α} (t : Nat) {s : LoopState α}
    (h : RelocInv n pid new change a0 s.attrib) (i : Nat)
    (hd : ElementDone pid new a0 s.attrib i) :
    ElementDone pid new a0 (post_slicing_thread_step B n pid new change t s).attrib i := by
  rcases post_slicing_thread_step_cases B n pid new change t s with
    ⟨_, e⟩ | ⟨v, _, _, e⟩ | ⟨v, _, _, _, e⟩ | ⟨v, _, hv, hc, e⟩
  all_goals rw [e]
  · exact hd
  · exact hd
  · exact hd
  · exact elementDone_copy h v i hd

/-- Two indices of one residue class that are less than a stride apart are ordered. -/
theorem le_of_mod_eq_of_lt_add {B i v : Nat} (h : i % B = v % B) (hlt : i < v + B) :
    i ≤ v := by
  by_contra hcon
  have hvi : v < i := by omega
  have hdvd : B ∣ i - v := (Nat.modEq_iff_dvd' hvi.le).1 h.symm
  have hpos : 0 < i - v := by omega
  have := Nat.le_of_dvd hpos hdvd
  omega

theorem threadInv_step_other {α : Type} {B n pid new : Nat} {change : Bitmask}
    {a0 : Attribute α} {t u : Nat} (hut : u ≠ t) {s : LoopState α}
    (h : RelocInv n pid new change a0 s.attrib)
    (ht : ThreadInv B n pid new change a0 t s) :
    ThreadInv B n pid new change a0 t (post_slicing_thread_step B n pid new change u s) := by
  have hvp : (post_slicing_thread_step B n pid new change u s).vp t = s.vp t := by
    rcases post_slicing_thread_step_cases B n pid new change u s with
      ⟨_, e⟩ | ⟨v, _, _, e⟩ | ⟨v, _, _, _, e⟩ | ⟨v, _, hv, hc, e⟩
    all_goals rw [e]
    all_goals simp [Function.update_noteq (Ne.symm hut)]
  rcases ht with ⟨v, hv, hmod, hdone⟩ | hdone
  · left
    exact ⟨v, hvp.trans hv, hmod, fun i hi him hiv hc =>
      elementDone_step u h i (hdone i hi him hiv hc)⟩
  · right
    exact fun i hi him hc => elementDone_step u h i (hdone i hi him hc)

theorem threadInv_step_self {α : Type} {B n pid new : Nat} {change : Bitmask}
    {a0 : Attribute α} {t : Nat} (hn : n < U16) {s : LoopState α}
    (h : RelocInv n pid new change a0 s.attrib)
    (ht : ThreadInv B n pid new change a0 t s) :
    ThreadInv B n pid new change a0 t (post_slicing_thread_step B n pid new change t s) := by
  rcases ht with ⟨v, hv, hmod, hdone⟩ | hdone
  swap
  · right
    exact fun i hi him hc => elementDone_step t h i (hdone i hi him hc)
  -- the thread is on its first sweep, at counter `v`
  have key : v < n → ∀ i, i < n → i % B = t → i < v + B → change i = true →
      ElementDone pid new a0 (post_slicing_thread_step B n pid new change t s).attrib i := by
    intro hvn i hi him hiv hc
    have hle : i ≤ v := le_of_mod_eq_of_lt_add (him.trans hmod.symm) hiv
    rcases Nat.lt_or_eq_of_le hle with hlt | heq
    · exact elementDone_step t h i (hdone i hi him hlt hc)
    · subst heq
      rcases post_slicing_thread_step_cases B n pid new change t s with
        ⟨e0, _⟩ | ⟨w, e0, hw, _⟩ | ⟨w, e0, _, hcw, _⟩ | ⟨w, e0, _, _, e⟩
      · rw [hv] at e0; cases e0
      · rw [hv] at e0; cases e0; exact absurd hvn hw
      · rw [hv] at e0; cases e0; rw [hc] at hcw; cases hcw
      · rw [hv] at e0; cases e0; rw [e]; exact elementDone_of_copy h i
  rcases post_slicing_thread_step_cases B n pid new change t s with
    ⟨e0, _⟩ | ⟨w, e0, hw, e⟩ | ⟨w, e0, hw, _, e⟩ | ⟨w, e0, hw, _, e⟩
  · rw [hv] at e0; cases e0
  · rw [hv] at e0; cases e0
    right
    intro i hi him hc
    rw [e]
    exact hdone i hi him (by omega) hc
  all_goals
    rw [hv] at e0; cases e0
    by_cases hwrap : v + B < U16
    · left
      refine ⟨v + B, ?_, ?_, ?_⟩
      · rw [e]; simp [next_vp, Nat.mod_eq_of_lt hwrap]
      · rw [Nat.add_mod_right]; exact hmod
      · intro i hi him hiv hc
        exact key hw i hi him hiv hc
    · right
      intro i hi him hc
      exact key hw i hi him (by omega) hc

theorem threadInv_step {α : Type} {B n pid new : Nat} {change : Bitmask}
    {a0 : Attribute α} {t : Nat} (u : Nat) (hn : n < U16) {s : LoopState α}
    (h : RelocInv n pid new change a0 s.attrib)
    (ht : ThreadInv B n pid new change a0 t s) :
    ThreadInv B n pid new change a0 t (post_slicing_thread_step B n pid new change u s) := by
  by_cases hut : u = t
  · subst hut; exact threadInv_step_self hn h ht
  · exact threadInv_step_other hut h ht

/-- The invariants hold along every schedule. -/
theorem post_slicing_run_inv {α : Type} {B n pid new : Nat} {change : Bitmask}
    {a0 : Attribute α} (hn : n < U16) (sched : List Nat) (s : LoopState α)
    (h : RelocInv n pid new change a0 s.attrib)
    (ht : ∀ t, t < B → t < U16 → ThreadInv B n pid new change a0 t s) :
    RelocInv n pid new change a0 (post_slicing_run B n pid new change sched s).attrib ∧
    ∀ t, t < B → t < U16 →
      ThreadInv B n pid new change a0 t (post_slicing_run B n pid new change sched s) := by
  induction sched generalizing s with
  | nil => exact ⟨h, ht⟩
  | cons u rest ih =>
    simp only [post_slicing_run, List.foldl_cons]
    exact ih _ (relocInv_step u h) (fun t h1 h2 => threadInv_step u hn h (ht t h1 h2))

theorem post_slicing_init_inv {α : Type} (B n pid new : Nat) (change : Bitmask)
    (a0 : Attribute α) :
    RelocInv n pid new change a0 (post_slicing_init B a0).attrib ∧
    ∀ t, t < B → t < U16 →
      ThreadInv B n pid new change a0 t (post_slicing_init B a0) := by
  refine ⟨⟨rfl, rfl, fun p i k => Or.inl rfl⟩, ?_⟩
  intro t htB ht16
  left
  refine ⟨t, ?_, Nat.mod_eq_of_lt htB, ?_⟩
  · simp [post_slicing_init, htB, Nat.mod_eq_of_lt ht16]
  · intro i _ him hit _
    have : i % B = i := Nat.mod_eq_of_lt (by omega)
    omega

theorem all_threads_done_iff {α : Type} (B : Nat) (s : LoopState α) :
    all_threads_done B s = true ↔ ∀ t, t < B → s.vp t = none := by
  simp [all_threads_done, List.all_eq_true, Option.isNone_iff_eq_none]

/-- Whatever the interleaving, once every thread has returned the array is the relocated
one. -/
theorem post_slicing_run_eq_relocated {α : Type} {B n pid new : Nat} {change : Bitmask}
    {a0 : Attribute α} (hB : 0 < B) (hn : n < U16) (sched : List Nat)
    (hdone : all_threads_done B
      (post_slicing_run B n pid new change sched (post_slicing_init B a0)) = true) :
    (post_slicing_run B n pid new change sched (post_slicing_init B a0)).attrib =
      relocated n pid new change a0 := by
  obtain ⟨hinit, hthreads⟩ := post_slicing_init_inv B n pid new change a0
  obtain ⟨hinv, hti⟩ := post_slicing_run_inv hn sched _ hinit hthreads
  rw [all_threads_done_iff] at hdone
  generalize post_slicing_run B n pid new change sched (post_slicing_init B a0) = s at *
  have hall : ∀ i, i < n → change i = true → ElementDone pid new a0 s.attrib i := by
    intro i hi hc
    have htB : i % B < B := Nat.mod_lt _ hB
    have ht16 : i % B < U16 := lt_of_le_of_lt (Nat.mod_le _ _) (by omega)
    rcases hti (i % B) htB ht16 with ⟨v, hv, _, _⟩ | hd
    · rw [hdone _ htB] at hv; cases hv
    · exact hd i hi rfl hc
  obtain ⟨h1, h2, h3⟩ := hinv
  cases s with
  | mk vp a =>
    cases a with
    | mk hd num data =>
      simp only [relocated] at *
      subst h1 h2
      congr 1
      funext p i k
      by_cases hc : p = new ∧ i < n ∧ change i = true ∧ k < a0.num_attributes
      · rw [if_pos hc]
        obtain ⟨hp, hi, hci, hk⟩ := hc
        subst hp
        exact hall i hi hci k hk
      · rw [if_neg hc]
        rcases h3 p i k with e | ⟨hp, hi, hci, hk, _⟩
        · exact e
        · exact absurd ⟨hp, hi, hci, hk⟩ hc

/-! ## Relocation: the loop returns when the counter cannot wrap -/

theorem post_slicing_thread_step_vp_other {α : Type} (B n pid new : Nat) (change : Bitmask)
    {t u : Nat} (hut : u ≠ t) (s : LoopState α) :
    (post_slicing_thread_step B n pid new change u s).vp t = s.vp t := by
  rcases post_slicing_thread_step_cases B n pid new change u s with
    ⟨_, e⟩ | ⟨v, _, _, e⟩ | ⟨v, _, _, _, e⟩ | ⟨v, _, hv, hc, e⟩
  all_goals rw [e]
  all_goals simp [Function.update_noteq (Ne.symm hut)]

theorem post_slicing_thread_step_none {α : Type} (B n pid new : Nat) (change : Bitmask)
    (t u : Nat) (s : LoopState α) (h : s.vp t = none) :
    (post_slicing_thread_step B n pid new change u s).vp t = none := by
  by_cases hut : u = t
  · subst hut
    rcases post_slicing_thread_step_cases B n pid new change u s with
      ⟨_, e⟩ | ⟨v, e0, _⟩ | ⟨v, e0, _⟩ | ⟨v, e0, _⟩
    · rw [e]; exact h
    all_goals rw [h] at e0; cases e0
  · rw [post_slicing_thread_step_vp_other B n pid new change hut]; exact h

theorem post_slicing_run_none {α : Type} (B n pid new : Nat) (change : Bitmask)
    (t : Nat) (sched : List Nat) (s : LoopState α) (h : s.vp t = none) :
    (post_slicing_run B n pid new change sched s).vp t = none := by
  induction sched generalizing s with
  | nil => exact h
  | cons u rest ih =>
    simp only [post_slicing_run, List.foldl_cons]
    exact ih _ (post_slicing_thread_step_none B n pid new change t u s h)

theorem post_slicing_run_replicate_other {α : Type} (B n pid new : Nat) (change : Bitmask)
    {t u : Nat} (hut : u ≠ t) (k : Nat) (s : LoopState α) :
    (post_slicing_run B n pid new change (List.replicate k u) s).vp t = s.vp t := by
  induction k generalizing s with
  | zero => rfl
  | succ k ih =>
    simp only [post_slicing_run, List.replicate_succ, List.foldl_cons]
    exact (ih _).trans (post_slicing_thread_step_vp_other B n pid new change hut s)

/-- A thread whose counter is `k` strides away from the count leaves the loop within
`k + 1` iterations, provided the counter cannot wrap. -/
theorem post_slicing_run_replicate_self {α : Type} (B n pid new : Nat) (change : Bitmask)
    (hnw : n + B ≤ U16) (t k : Nat) (s : LoopState α) (v : Nat) (hv : s.vp t = some v)
    (hk : n ≤ v + k * B) :
    (post_slicing_run B n pid new change (List.replicate (k + 1) t) s).vp t = none := by
  induction k generalizing s v with
  | zero =>
    simp only [post_slicing_run, List.replicate_succ, List.replicate_zero, List.foldl_cons,
      List.foldl_nil]
    rcases post_slicing_thread_step_cases B n pid new change t s with
      ⟨e0, _⟩ | ⟨w, e0, hw, e⟩ | ⟨w, e0, hw, _, e⟩ | ⟨w, e0, hw, _, e⟩
    · rw [hv] at e0; cases e0
    · rw [e]; simp
    all_goals rw [hv] at e0; cases e0; omega
  | succ k ih =>
    rw [List.replicate_succ]
    simp only [post_slicing_run, List.foldl_cons]
    rcases post_slicing_thread_step_cases B n pid new change t s with
      ⟨e0, _⟩ | ⟨w, e0, hw, e⟩ | ⟨w, e0, hw, _, e⟩ | ⟨w, e0, hw, _, e⟩
    · rw [hv] at e0; cases e0
    · exact post_slicing_run_none B n pid new change t _ _ (by rw [e]; simp)
    all_goals
      rw [hv] at e0; cases e0
      have hnext : next_vp B v = v + B := Nat.mod_eq_of_lt (by omega)
      refine ih _ (v + B) (by rw [e]; simp [hnext]) ?_
      rw [Nat.succ_mul] at hk
      omega

theorem post_slicing_run_append {α : Type} (B n pid new : Nat) (change : Bitmask)
    (l1 l2 : List Nat) (s : LoopState α) :
    post_slicing_run B n pid new change (l1 ++ l2) s =
      post_slicing_run B n pid new change l2 (post_slicing_run B n pid new change l1 s) := by
  simp [post_slicing_run, List.foldl_append]

theorem post_slicing_run_flatMap {α : Type} (B n pid new : Nat) (change : Bitmask)
    (hnw : n + B ≤ U16) (k : Nat) (ts : List Nat) (s : LoopState α)
    (h : ∀ t, t ∈ ts → s.vp t = none ∨ ∃ v, s.vp t = some v ∧ n ≤ v + k * B) :
    ∀ t, t ∈ ts →
      (post_slicing_run B n pid new change
        (ts.flatMap (fun t => List.replicate (k + 1) t)) s).vp t = none := by
  induction ts generalizing s with
  | nil => intro t ht; cases ht
  | cons u rest ih =>
    intro t ht
    rw [List.flatMap_cons, post_slicing_run_append]
    have hu : (post_slicing_run B n pid new change (List.replicate (k + 1) u) s).vp u = none := by
      rcases h u (List.mem_cons_self _ _) with h0 | ⟨v, hv, hk⟩
      · exact post_slicing_run_none B n pid new change u _ s h0
      · exact post_slicing_run_replicate_self B n pid new change hnw u k s v hv hk
    by_cases htu : t = u
    · subst htu
      exact post_slicing_run_none B n pid new change t _ _ hu
    · have htr : t ∈ rest := by
        rcases List.mem_cons.1 ht with h1 | h1
        · exact absurd h1 htu
        · exact h1
      refine ih _ ?_ t htr
      intro w hw
      by_cases hwu : w = u
      · subst hwu; exact Or.inl hu
      · rw [post_slicing_run_replicate_other B n pid new change (Ne.symm hwu)]
        exact h w (List.mem_cons_of_mem _ hw)

/-- With a count of at most `2^16 - blockThreads` the sequential schedule that grants
`num_elements + 1` iterations to each thread lets every thread return. -/
theorem post_slicing_sequential_done {α : Type} (B n pid new : Nat) (change : Bitmask)
    (hB : 0 < B) (hnw : n + B ≤ U16) (a0 : Attribute α) :
    all_threads_done B (post_slicing_run B n pid new change (sequential_schedule B (n + 1))
      (post_slicing_init B a0)) = true := by
  rw [all_threads_done_iff]
  intro t ht
  refine post_slicing_run_flatMap B n pid new change hnw n (List.range B) _ ?_ t
    (List.mem_range.2 ht)
  intro u hu
  right
  have huB : u < B := List.mem_range.1 hu
  refine ⟨u, ?_, ?_⟩
  · have : u % U16 = u := Nat.mod_eq_of_lt (by omega)
    simp [post_slicing_init, huB, this]
  · have : n * 1 ≤ n * B := Nat.mul_le_mul_left n hB
    omega

/-- Without wrap-around an iteration of thread `t` lowers its potential and an iteration of
another thread leaves it. -/
theorem loop_potential_step {α : Type} (B n pid new : Nat) (change : Bitmask) (hB : 0 < B)
    (hnw : n + B ≤ U16) (t u : Nat) (s : LoopState α) :
    loop_potential n (post_slicing_thread_step B n pid new change u s) t ≤
      loop_potential n s t - (if u = t then 1 else 0) := by
  by_cases hut : u = t
  · subst hut
    simp only [if_true]
    rcases post_slicing_thread_step_cases B n pid new change u s with
      ⟨e0, e⟩ | ⟨w, e0, hw, e⟩ | ⟨w, e0, hw, _, e⟩ | ⟨w, e0, hw, _, e⟩
    · rw [e]; simp [loop_potential, e0]
    · rw [e]; simp [loop_potential, e0]
    all_goals
      have hnext : next_vp B w = w + B := Nat.mod_eq_of_lt (by omega)
      rw [e]
      simp only [loop_potential, e0, Function.update_same, hnext]
      omega
  · simp only [if_neg hut, Nat.sub_zero, loop_potential,
      post_slicing_thread_step_vp_other B n pid new change hut s]
    exact le_rfl

theorem loop_potential_run {α : Type} (B n pid new : Nat) (change : Bitmask) (hB : 0 < B)
    (hnw : n + B ≤ U16) (t : Nat) (sched : List Nat) (s : LoopState α) :
    loop_potential n (post_slicing_run B n pid new change sched s) t ≤
      loop_potential n s t - sched.count t := by
  induction sched generalizing s with
  | nil => simp [post_slicing_run]
  | cons u rest ih =>
    simp only [post_slicing_run, List.foldl_cons]
    have h1 := ih (post_slicing_thread_step B n pid new change u s)
    have h2 := loop_potential_step B n pid new change hB hnw t u s
    simp only [post_slicing_run] at h1
    rw [List.count_cons]
    by_cases hut : u = t
    · subst hut
      simp only [if_true, beq_self_eq_true] at h2 ⊢
      omega
    · have hne : (u == t) = false := by simpa using hut
      simp only [if_neg hut] at h2
      simp only [hne, Bool.false_eq_true, if_false]
      omega

/-- With a count of at most `2^16 - blockThreads`, every interleaving that grants each
thread `num_elements + 1` loop iterations lets every thread return. -/
theorem post_slicing_fair_done {α : Type} (B n pid new : Nat) (change : Bitmask)
    (hB : 0 < B) (hnw : n + B ≤ U16) (a0 : Attribute α) (sched : List Nat)
    (hfair : ∀ t, t < B → n + 1 ≤ sched.count t) :
    all_threads_done B (post_slicing_run B n pid new change sched
      (post_slicing_init B a0)) = true := by
  rw [all_threads_done_iff]
  intro t ht
  have h := loop_potential_run B n pid new change hB hnw t sched (post_slicing_init B a0)
  have hinit : loop_potential n (post_slicing_init B a0) t ≤ n + 1 := by
    simp only [loop_potential, post_slicing_init, ht, if_true]
    omega
  have hzero : loop_potential n (post_slicing_run B n pid new change sched
      (post_slicing_init B a0)) t = 0 := by
    have := hfair t ht
    omega
  unfold loop_potential at hzero
  split at hzero
  · assumption
  · omega

/-! ## The launch budget -/

theorem foldl_max_le_iff {Op : Type} (f : Op → Nat) (l : List Op) (init X : Nat) :
    l.foldl (fun acc o => max acc (f o)) init ≤ X ↔ init ≤ X ∧ ∀ o, o ∈ l → f o ≤ X := by
  induction l generalizing init with
  | nil => simp
  | cons a rest ih =>
    simp only [List.foldl_cons, ih, List.mem_cons, forall_eq_or_imp, max_le_iff]
    tauto

theorem static_shmem_le_iff {Op : Type} (csm : Op → Bool → Nat) (op : List Op)
    (oriented : Bool) (X : Nat) :
    static_shmem csm op oriented ≤ X ↔ ∀ o, o ∈ op → csm o oriented ≤ X := by
  unfold static_shmem
  rw [foldl_max_le_iff (fun o => csm o oriented)]
  simp

theorem static_shmem_ge {Op : Type} (csm : Op → Bool → Nat) (op : List Op)
    (oriented : Bool) (o : Op) (ho : o ∈ op) :
    csm o oriented ≤ static_shmem csm op oriented :=
  (static_shmem_le_iff csm op oriented _).1 le_rfl o ho

/-- C2 (budgeter monotonicity): for a fixed mesh and oriented flag, when every operation of
the list `A` also occurs in the list `B`, the `smem_bytes_dyn` computed by
`prepare_launch_box` for `B` is at least the one computed for `A`, whatever footprint
`calc_shared_memory` returns. -/
theorem prepare_launch_box_mono {Op : Type} (P : Platform) (m : RXMeshDynamic)
    (calc_shared_memory : Op → Bool → Nat) (oriented : Bool) (A B : List Op)
    (hsub : ∀ o, o ∈ A → o ∈ B) :
    (prepare_launch_box P m calc_shared_memory A oriented).smem_bytes_dyn ≤
      (prepare_launch_box P m calc_shared_memory B oriented).smem_bytes_dyn := by
  simp only [prepare_launch_box]
  apply max_le_max le_rfl
  rw [static_shmem_le_iff]
  intro o ho
  exact static_shmem_ge calc_shared_memory B oriented o (hsub o ho)

/-- Witness of C2: on the small mesh the budget for the operations `[1]` is the dynamic
footprint and the budget for the larger request `[5, 1]` is not smaller. -/
theorem prepare_launch_box_mono_witness :
    (prepare_launch_box platform_8 small_mesh footprint [1] false).smem_bytes_dyn ≤
      (prepare_launch_box platform_8 small_mesh footprint [5, 1] false).smem_bytes_dyn ∧
    (prepare_launch_box platform_8 small_mesh footprint [1] false).smem_bytes_dyn = 13524 ∧
    (prepare_launch_box platform_8 small_mesh footprint [5, 1] false).smem_bytes_dyn = 20000 :=
  ⟨prepare_launch_box_mono platform_8 small_mesh footprint false [1] [5, 1]
      (fun _ ho => List.mem_cons_of_mem 5 ho),
    by decide, by decide⟩

/-- C10 (launch configuration depends on the set of operations): for a fixed mesh and
oriented flag, two operation lists with the same elements, in any order and with any
repetitions, give the same launch box (block count and `smem_bytes_dyn`), and the block
count is `m_num_patches` whatever the list. -/
theorem prepare_launch_box_same_set {Op : Type} (P : Platform) (m : RXMeshDynamic)
    (calc_shared_memory : Op → Bool → Nat) (oriented : Bool) (A B : List Op)
    (hset : ∀ o, o ∈ A ↔ o ∈ B) :
    prepare_launch_box P m calc_shared_memory A oriented =
        prepare_launch_box P m calc_shared_memory B oriented ∧
      (prepare_launch_box P m calc_shared_memory A oriented).blocks = m.m_num_patches ∧
      (prepare_launch_box P m calc_shared_memory B oriented).blocks = m.m_num_patches := by
  refine ⟨?_, rfl, rfl⟩
  have hS : static_shmem calc_shared_memory A oriented =
      static_shmem calc_shared_memory B oriented := by
    apply le_antisymm
    · rw [static_shmem_le_iff]
      exact fun o ho => static_shmem_ge calc_shared_memory B oriented o ((hset o).1 ho)
    · rw [static_shmem_le_iff]
      exact fun o ho => static_shmem_ge calc_shared_memory A oriented o ((hset o).2 ho)
  simp only [prepare_launch_box, hS]

/-- Witness of C10: the requests `[1, 5, 1]` and `[5, 1]` name the same operations and get
the same launch box, with one block per patch. -/
theorem prepare_launch_box_same_set_witness :
    prepare_launch_box platform_8 small_mesh footprint [1, 5, 1] false =
      prepare_launch_box platform_8 small_mesh footprint [5, 1] false ∧
    (prepare_launch_box platform_8 small_mesh footprint [1, 5, 1] false).blocks = 3 :=
  ⟨(prepare_launch_box_same_set platform_8 small_mesh footprint false [1, 5, 1] [5, 1]
      (fun o => by simp only [List.mem_cons, List.mem_singleton, List.not_mem_nil]; tauto)).1,
    (prepare_launch_box_same_set platform_8 small_mesh footprint false [1, 5, 1] [5, 1]
      (fun o => by simp only [List.mem_cons, List.mem_singleton, List.not_mem_nil]; tauto)).2.1⟩

/-! ## `post_slicing_update_attributes` as a whole -/

theorem get_num_elements_lt (pi : PatchInfo) (h : HandleType) :
    pi.get_num_elements h < U16 := by
  cases h <;> exact Nat.mod_lt _ (by decide)

/-- Whatever the interleaving, a call that returns yields the relocated array. -/
theorem post_slicing_update_attributes_eq {α : Type} {B : Nat} (hB : 0 < B)
    (sched : List Nat) (pi : PatchInfo) (new : Nat) (cv ce cf : Bitmask)
    (a a' : Attribute α)
    (h : post_slicing_update_attributes B sched pi new cv ce cf a = some a') :
    a' = relocated (pi.get_num_elements a.handle) pi.patch_id new
      (ownership_change a.handle cv ce cf) a := by
  unfold post_slicing_update_attributes at h
  simp only at h
  split at h
  · rename_i hdone
    cases h
    exact post_slicing_run_eq_relocated hB (get_num_elements_lt pi a.handle) sched hdone
  · cases h

/-- With a count of at most `2^16 - blockThreads` the call returns under the sequential
schedule. -/
theorem post_slicing_update_attributes_sequential {α : Type} {B : Nat} (hB : 0 < B)
    (pi : PatchInfo) (new : Nat) (cv ce cf : Bitmask) (a : Attribute α)
    (hnw : pi.get_num_elements a.handle + B ≤ U16) :
    post_slicing_update_attributes B
        (sequential_schedule B (pi.get_num_elements a.handle + 1)) pi new cv ce cf a =
      some (relocated (pi.get_num_elements a.handle) pi.patch_id new
        (ownership_change a.handle cv ce cf) a) := by
  have hdone := post_slicing_sequential_done B (pi.get_num_elements a.handle) pi.patch_id new
    (ownership_change a.handle cv ce cf) hB hnw a
  have heq := post_slicing_run_eq_relocated hB (get_num_elements_lt pi a.handle) _ hdone
  unfold post_slicing_update_attributes
  simp only [hdone, if_true, heq]

/-- With a count of at most `2^16 - blockThreads` the call returns under every interleaving
that grants each thread `num_elements + 1` loop iterations. -/
theorem post_slicing_update_attributes_fair {α : Type} {B : Nat} (hB : 0 < B)
    (pi : PatchInfo) (new : Nat) (cv ce cf : Bitmask) (a : Attribute α)
    (hnw : pi.get_num_elements a.handle + B ≤ U16) (sched : List Nat)
    (hfair : ∀ t, t < B → pi.get_num_elements a.handle + 1 ≤ sched.count t) :
    post_slicing_update_attributes B sched pi new cv ce cf a =
      some (relocated (pi.get_num_elements a.handle) pi.patch_id new
        (ownership_change a.handle cv ce cf) a) := by
  have hdone := post_slicing_fair_done B (pi.get_num_elements a.handle) pi.patch_id new
    (ownership_change a.handle cv ce cf) hB hnw a sched hfair
  have heq := post_slicing_run_eq_relocated hB (get_num_elements_lt pi a.handle) _ hdone
  unfold post_slicing_update_attributes
  simp only [hdone, if_true, heq]

/-- C1 (attribute fidelity): for every attribute array, patch and new patch id different
from the patch id, whenever `post_slicing_update_attributes` returns (under any
interleaving of the threads of the block), every local index `vp` below the count of the
array's element type whose ownership-change bit is set and every `attr` below
`get_num_attributes()` satisfy `attribute(new_pid, vp, attr)` after the call
`= attribute(pid, vp, attr)` before the call.  The call does return when the count is at
most `2^16 - blockThreads`: under every interleaving that grants each thread
`num_elements + 1` loop iterations, and such an interleaving exists. -/
theorem post_slicing_update_attributes_fidelity {α : Type} (blockThreads : Nat)
    (pi : PatchInfo) (new_patch_id : Nat) (cv ce cf : Bitmask) (attrib : Attribute α)
    (hB : 0 < blockThreads) (hne : new_patch_id ≠ pi.patch_id) :
    (∀ sched attrib',
      post_slicing_update_attributes blockThreads sched pi new_patch_id cv ce cf attrib =
        some attrib' →
      ∀ vp attr, vp < pi.get_num_elements attrib.handle →
        ownership_change attrib.handle cv ce cf vp = true → attr < attrib.num_attributes →
        attrib'.data new_patch_id vp attr = attrib.data pi.patch_id vp attr) ∧
    (pi.get_num_elements attrib.handle + blockThreads ≤ U16 →
      (∀ sched,
        (∀ t, t < blockThreads → pi.get_num_elements attrib.handle + 1 ≤ sched.count t) →
        ∃ attrib',
          post_slicing_update_attributes blockThreads sched pi new_patch_id cv ce cf attrib =
            some attrib') ∧
      ∃ sched attrib',
        post_slicing_update_attributes blockThreads sched pi new_patch_id cv ce cf attrib =
          some attrib') := by
  have _ := hne
  constructor
  · intro sched attrib' hrun vp attr hvp hc hattr
    rw [post_slicing_update_attributes_eq hB sched pi new_patch_id cv ce cf attrib attrib' hrun]
    simp [relocated, hvp, hc, hattr]
  · intro hnw
    exact ⟨fun sched hfair =>
        ⟨_, post_slicing_update_attributes_fair hB pi new_patch_id cv ce cf attrib hnw sched
          hfair⟩,
      _, _, post_slicing_update_attributes_sequential hB pi new_patch_id cv ce cf attrib hnw⟩

/-- Witness of C1: in a block of two threads whose iterations alternate, vertex 2 of
patch 0 (ownership changed) is relocated to patch 7 with its second attribute `121`. -/
theorem post_slicing_update_attributes_fidelity_witness :
    ∃ attrib',
      post_slicing_update_attributes 2 [0, 1, 0, 1, 0, 1, 0, 1, 0, 1, 0, 1] patch_5_7_3 7
        even_masks.v even_masks.e even_masks.f vertex_attr = some attrib' ∧
      attrib'.data 7 2 1 = 121 := by
  obtain ⟨h1, h2⟩ := post_slicing_update_attributes_fidelity 2 patch_5_7_3 7 even_masks.v
    even_masks.e even_masks.f vertex_attr (by decide) (by decide)
  obtain ⟨attrib', hrun⟩ := (h2 (by decide)).1 [0, 1, 0, 1, 0, 1, 0, 1, 0, 1, 0, 1]
    (fun t ht => by
      have ht2 : t = 0 ∨ t = 1 := by omega
      rcases ht2 with rfl | rfl <;> decide)
  exact ⟨attrib', hrun,
    (h1 _ attrib' hrun 2 1 (by decide) (by decide) (by decide)).trans (by decide)⟩

/-! ## The fold over the attribute pack -/

/-- Whatever the interleavings, a fold that returns yields every array relocated with the
count and the mask of its own element type. -/
theorem relocate_attributes_eq {α : Type} {B : Nat} (hB : 0 < B) (pi : PatchInfo)
    (new : Nat) (change : Masks) (attributes : List (Attribute α)) :
    ∀ scheds attributes',
      relocate_attributes B pi new change scheds attributes = some attributes' →
      attributes' = attributes.map (fun a =>
        relocated (pi.get_num_elements a.handle) pi.patch_id new
          (ownership_change a.handle change.v change.e change.f) a) := by
  intro scheds
  induction attributes generalizing scheds with
  | nil =>
    intro attributes' h
    simp only [relocate_attributes] at h
    cases h
    rfl
  | cons a rest ih =>
    intro attributes' h
    simp only [relocate_attributes] at h
    split at h
    · cases h
    · rename_i a' ha
      split at h
      · cases h
      · rename_i rest' hrest
        cases h
        rw [List.map_cons, ← ih _ _ hrest,
          ← post_slicing_update_attributes_eq hB _ pi new _ _ _ a a' ha]

/-- The fold returns when no counter can wrap. -/
theorem relocate_attributes_returns {α : Type} {B : Nat} (hB : 0 < B) (pi : PatchInfo)
    (new : Nat) (change : Masks) (attributes : List (Attribute α))
    (hnw : ∀ a, a ∈ attributes → pi.get_num_elements a.handle + B ≤ U16) :
    ∃ scheds attributes',
      relocate_attributes B pi new change scheds attributes = some attributes' := by
  induction attributes with
  | nil => exact ⟨[], [], rfl⟩
  | cons a rest ih =>
    obtain ⟨scheds, rest', hrest⟩ := ih (fun b hb => hnw b (List.mem_cons_of_mem _ hb))
    refine ⟨sequential_schedule B (pi.get_num_elements a.handle + 1) :: scheds,
      relocated (pi.get_num_elements a.handle) pi.patch_id new
        (ownership_change a.handle change.v change.e change.f) a :: rest', ?_⟩
    simp only [relocate_attributes, List.headD_cons, List.tail_cons]
    rw [post_slicing_update_attributes_sequential hB pi new _ _ _ a
      (hnw a (List.mem_cons_self _ _))]
    simp only [hrest]

/-- Every returning fold yields the input list with each array relocated once: a vertex
array with the vertex mask and the vertex count, an edge array with the edge mask and the
edge count, a face array with the face mask and the face count, each for all its
attributes; the fold returns when the counts are at most `2^16 - blockThreads`. -/
theorem relocate_attributes_by_type {α : Type} (blockThreads : Nat) (pi : PatchInfo)
    (new_patch_id : Nat) (change : Masks) (attributes : List (Attribute α))
    (hB : 0 < blockThreads) :
    (∀ scheds attributes',
      relocate_attributes blockThreads pi new_patch_id change scheds attributes =
        some attributes' →
      attributes' = attributes.map (fun a =>
        match a.handle with
        | .VertexHandle =>
          relocated (pi.num_vertices % U16) pi.patch_id new_patch_id change.v a
        | .EdgeHandle =>
          relocated (pi.num_edges % U16) pi.patch_id new_patch_id change.e a
        | .FaceHandle =>
          relocated (pi.num_faces % U16) pi.patch_id new_patch_id change.f a)) ∧
    ((∀ a, a ∈ attributes → pi.get_num_elements a.handle + blockThreads ≤ U16) →
      ∃ scheds attributes',
        relocate_attributes blockThreads pi new_patch_id change scheds attributes =
          some attributes') := by
  refine ⟨?_, relocate_attributes_returns hB pi new_patch_id change attributes⟩
  intro scheds attributes' hrun
  rw [relocate_attributes_eq hB pi new_patch_id change attributes scheds attributes' hrun]
  apply List.map_congr_left
  intro a _
  cases hh : a.handle <;> simp only [PatchInfo.get_num_elements, ownership_change]

/-! ## The kernel block -/

/-- A block that passes both guards runs the reservation, the two slicing steps and the
relocation fold. -/
theorem slice_patches_block_slicing {α : Type} (steps : SliceSteps) (B : Nat)
    (scheds : List (List Nat)) (context : Context) (current thr : Nat)
    (attributes : List (Attribute α)) (pid : Nat)
    (h : pid < current ∧ thr ≤ (context.m_patches_info pid).num_faces % U16) :
    slice_patches_block steps B scheds context current thr attributes pid =
      match relocate_attributes B
          (steps.slice context.m_patches_info (context.m_patches_info pid)
            context.m_num_patches (steps.bi_assignment (context.m_patches_info pid))).2.1
          context.m_num_patches
          (steps.slice context.m_patches_info (context.m_patches_info pid)
            context.m_num_patches (steps.bi_assignment (context.m_patches_info pid))).2.2
          scheds attributes with
      | none => none
      | some attributes' =>
        some { context :=
                 { m_num_patches := (context.m_num_patches + 1) % U32
                   m_max_num_patches := context.m_max_num_patches
                   m_patches_info :=
                     (steps.slice context.m_patches_info (context.m_patches_info pid)
                       context.m_num_patches
                       (steps.bi_assignment (context.m_patches_info pid))).1 }
               attributes := attributes'
               s_new_patch_id := some context.m_num_patches
               assert_ok := decide (context.m_num_patches < context.m_max_num_patches) } := by
  unfold slice_patches_block
  have h1 : ¬ pid ≥ current := by omega
  have h2 : (context.m_patches_info pid).num_faces % U16 ≥ thr := h.2
  simp only [h1, h2, if_false, if_true, reserve_patch_id, atomicAdd]

/-- C5, as amended (materialize step): a block that passes both guards and returns has
incremented the patch counter once, by one, and has taken the previous counter value as its
new patch id; its assertion holds exactly when that id is below `m_max_num_patches`, and
whenever it holds the counter after the increment is at most `m_max_num_patches`. -/
theorem slice_patches_block_reservation {α : Type} (steps : SliceSteps) (blockThreads : Nat)
    (scheds : List (List Nat)) (context : Context)
    (current_num_patches num_faces_threshold : Nat) (attributes : List (Attribute α))
    (pid : Nat) (r : BlockResult α)
    (hpid : pid < current_num_patches)
    (hthr : num_faces_threshold ≤ (context.m_patches_info pid).num_faces % U16)
    (hrun : slice_patches_block steps blockThreads scheds context current_num_patches
      num_faces_threshold attributes pid = some r) :
    r.s_new_patch_id = some context.m_num_patches ∧
    r.context.m_num_patches = (context.m_num_patches + 1) % U32 ∧
    r.context.m_max_num_patches = context.m_max_num_patches ∧
    (r.assert_ok = true ↔ context.m_num_patches < context.m_max_num_patches) ∧
    (r.assert_ok = true → r.context.m_num_patches ≤ context.m_max_num_patches) := by
  rw [slice_patches_block_slicing steps blockThreads scheds context _ _ attributes pid
    ⟨hpid, hthr⟩] at hrun
  split at hrun
  · cases hrun
  · cases hrun
    refine ⟨rfl, rfl, rfl, by simp, ?_⟩
    intro hok
    have hlt : context.m_num_patches < context.m_max_num_patches := by simpa using hok
    exact le_trans (Nat.mod_le _ _) hlt

/-- Witness of C5 as amended: the single patch of a mesh provisioned for two patches has 100
faces; with threshold 64 its block takes id `1`, the assertion holds and the counter
becomes `2`. -/
theorem slice_patches_block_reservation_witness :
    ∃ r, slice_patches_block copy_steps 256 [] (one_patch_context 100 2) 1 64
        ([] : List (Attribute Nat)) 0 = some r ∧
      r.s_new_patch_id = some 1 ∧ r.context.m_num_patches = 2 ∧ r.assert_ok = true :=
  ⟨_, rfl,
    (slice_patches_block_reservation copy_steps 256 [] (one_patch_context 100 2) 1 64
      ([] : List (Attribute Nat)) 0 _ (by decide) (by decide) rfl).1,
    (slice_patches_block_reservation copy_steps 256 [] (one_patch_context 100 2) 1 64
      ([] : List (Attribute Nat)) 0 _ (by decide) (by decide) rfl).2.1,
    rfl⟩

/-- Counterexample to C5 as stated: in a mesh of one patch provisioned for two patches the
assertion of the slicing block holds, yet the counter after the increment equals
`m_max_num_patches` and is not less than it. -/
theorem slice_patches_block_counter_reaches_max :
    (slice_patches_block copy_steps 256 [] (one_patch_context 100 2) 1 64
        ([] : List (Attribute Nat)) 0).map
      (fun r => (r.assert_ok, r.context.m_num_patches, r.context.m_max_num_patches,
        decide (r.context.m_num_patches < r.context.m_max_num_patches))) =
      some (true, 2, 2, false) := by
  decide

/-- C7 at the failing input: a patch whose face count equals the threshold (64 faces,
threshold 64) is sliced, its block takes the new patch id `1` and moves the counter to `2`,
although `64` is not greater than `64`. -/
theorem slice_patches_block_at_threshold :
    (slice_patches_block copy_steps 256 [] (one_patch_context 64 8) 1 64
        ([] : List (Attribute Nat)) 0).map
      (fun r => (r.s_new_patch_id, r.context.m_num_patches)) = some (some 1, 2) ∧
    ¬ (64 < ((one_patch_context 64 8).m_patches_info 0).num_faces) := by
  decide

/-! ## Patch ids handed out in one pass -/

theorem validation_check_iff (before after_p after_new : PatchInfo) (h : HandleType)
    (i : Nat) :
    validation_check (before.active_mask h i) (!after_p.is_deleted h i)
        (!after_new.is_deleted h i) = true ↔
      ((before.active_mask h i = true →
          after_p.active_mask h i = true ∨ after_new.active_mask h i = true) ∧
        (before.active_mask h i = false →
          after_p.active_mask h i = false ∧ after_new.active_mask h i = false)) := by
  simp only [validation_check, PatchInfo.is_deleted, Bool.not_not]
  cases before.active_mask h i <;> cases after_p.active_mask h i <;>
    cases after_new.active_mask h i <;> simp

/-- A loop that went through has checked every index of its residue class from its start
up to the count. -/
theorem validation_loop_passed {B n : Nat} {was p q : Bitmask} (hn : n < U16) :
    ∀ fuel v, validation_loop B n was p q fuel v = .passed →
      ∀ i, v ≤ i → i < n → i % B = v % B → validation_check (was i) (p i) (q i) = true := by
  intro fuel
  induction fuel with
  | zero => intro v h; simp [validation_loop] at h
  | succ fuel ih =>
    intro v h i hvi hin hmod
    simp only [validation_loop] at h
    split at h
    · split at h
      · rename_i hcheck
        rcases Nat.eq_or_lt_of_le hvi with heq | hlt
        · subst heq; exact hcheck
        · have hge : v + B ≤ i := by
            by_contra hcon
            have := le_of_mod_eq_of_lt_add hmod (by omega)
            omega
          have hnext : next_vp B v = v + B := Nat.mod_eq_of_lt (by omega)
          rw [hnext] at h
          exact ih (v + B) h i hge hin (by rw [Nat.add_mod_right]; exact hmod)
      · cases h
    · omega

/-- A failed check in the residue class of the start, at or after the start, is reached. -/
theorem validation_loop_finds {B n : Nat} {was p q : Bitmask} (hB : 0 < B) (hn : n < U16) :
    ∀ d v i, i - v ≤ d → v ≤ i → i < n → i % B = v % B →
      validation_check (was i) (p i) (q i) = false →
      ∃ fuel, validation_loop B n was p q fuel v = .assert_failed := by
  intro d
  induction d with
  | zero =>
    intro v i hd hvi hin _ hcheck
    have : i = v := by omega
    subst this
    exact ⟨1, by simp [validation_loop, hin, hcheck]⟩
  | succ d ih =>
    intro v i hd hvi hin hmod hcheck
    have hvn : v < n := by omega
    cases hv : validation_check (was v) (p v) (q v) with
    | false => exact ⟨1, by simp [validation_loop, hvn, hv]⟩
    | true =>
      have hne : i ≠ v := by
        intro he; subst he; rw [hv] at hcheck; cases hcheck
      have hge : v + B ≤ i := by
        by_contra hcon
        have := le_of_mod_eq_of_lt_add hmod (by omega)
        omega
      have hnext : next_vp B v = v + B := Nat.mod_eq_of_lt (by omega)
      obtain ⟨fuel, hf⟩ := ih (v + B) i (by omega) hge hin
        (by rw [Nat.add_mod_right]; exact hmod) hcheck
      exact ⟨fuel + 1, by simp [validation_loop, hvn, hv, hnext, hf]⟩

/-- A failed assertion comes from an index below the count whose check fails. -/
theorem validation_loop_failed {B n : Nat} {was p q : Bitmask} :
    ∀ fuel v, validation_loop B n was p q fuel v = .assert_failed →
      ∃ i, i < n ∧ validation_check (was i) (p i) (q i) = false := by
  intro fuel
  induction fuel with
  | zero => intro v h; simp [validation_loop] at h
  | succ fuel ih =>
    intro v h
    simp only [validation_loop] at h
    split at h
    · rename_i hvn
      split at h
      · exact ih _ h
      · rename_i hcheck
        exact ⟨v, hvn, by simpa using hcheck⟩
    · cases h

/-- More fuel does not change the outcome of a loop that has ended. -/
theorem validation_loop_mono {B n : Nat} {was p q : Bitmask} :
    ∀ fuel v r, validation_loop B n was p q fuel v = r → r ≠ .running →
      ∀ fuel', fuel ≤ fuel' → validation_loop B n was p q fuel' v = r := by
  intro fuel
  induction fuel with
  | zero => intro v r h hr; simp only [validation_loop] at h; exact absurd h.symm hr
  | succ fuel ih =>
    intro v r h hr fuel' hle
    obtain ⟨k, rfl⟩ : ∃ k, fuel' = k + 1 := ⟨fuel' - 1, by omega⟩
    simp only [validation_loop] at h ⊢
    split
    · rename_i hvn
      simp only [hvn, if_true] at h
      split
      · rename_i hcheck
        simp only [hcheck, if_true] at h
        exact ih _ r h hr k (by omega)
      · rename_i hcheck
        simp only [hcheck] at h
        exact h
    · rename_i hvn
      simp only [hvn, if_false] at h
      exact h

/-- Without wrap-around, a loop whose checks all hold returns. -/
theorem validation_loop_returns {B n : Nat} {was p q : Bitmask} (hB : 0 < B)
    (hnw : n + B ≤ U16) :
    ∀ d v, n - v ≤ d →
      (∀ i, v ≤ i → i < n → i % B = v % B → validation_check (was i) (p i) (q i) = true) →
      ∃ fuel, validation_loop B n was p q fuel v = .passed := by
  intro d
  induction d with
  | zero =>
    intro v hd _
    exact ⟨1, by simp [validation_loop, show ¬ v < n by omega]⟩
  | succ d ih =>
    intro v hd hall
    by_cases hvn : v < n
    · have hnext : next_vp B v = v + B := Nat.mod_eq_of_lt (by omega)
      obtain ⟨fuel, hf⟩ := ih (v + B) (by omega) (fun i hvi hin hmod =>
        hall i (by omega) hin (by rw [hmod, Nat.add_mod_right]))
      exact ⟨fuel + 1, by simp [validation_loop, hvn, hall v le_rfl hvn rfl, hnext, hf]⟩
    · exact ⟨1, by simp [validation_loop, hvn]⟩

theorem validation_loop_of_passed {B : Nat} (before after_p after_new : PatchInfo)
    (h : HandleType) (fuel i : Nat) (hi : i < before.get_num_elements h)
    (hp : validation_loop_of B before after_p after_new h fuel (i % B) = .passed) :
    (before.active_mask h i = true →
        after_p.active_mask h i = true ∨ after_new.active_mask h i = true) ∧
      (before.active_mask h i = false →
        after_p.active_mask h i = false ∧ after_new.active_mask h i = false) := by
  have hn := get_num_elements_lt before h
  have hle : i % B ≤ i := Nat.mod_le _ _
  have hv : i % B % U16 = i % B := Nat.mod_eq_of_lt (by omega)
  unfold validation_loop_of at hp
  rw [hv] at hp
  exact (validation_check_iff before after_p after_new h i).1
    (validation_loop_passed hn fuel (i % B) hp i hle hi (Nat.mod_mod _ _).symm)

theorem validation_loop_of_finds {B : Nat} (hB : 0 < B) (before after_p after_new : PatchInfo)
    (h : HandleType) (i : Nat) (hi : i < before.get_num_elements h)
    (hbad : ¬ ((before.active_mask h i = true →
        after_p.active_mask h i = true ∨ after_new.active_mask h i = true) ∧
      (before.active_mask h i = false →
        after_p.active_mask h i = false ∧ after_new.active_mask h i = false))) :
    ∃ fuel, validation_loop_of B before after_p after_new h fuel (i % B) = .assert_failed := by
  have hn := get_num_elements_lt before h
  have hle : i % B ≤ i := Nat.mod_le _ _
  have hv : i % B % U16 = i % B := Nat.mod_eq_of_lt (by omega)
  have hcheck : validation_check (before.active_mask h i) (!after_p.is_deleted h i)
      (!after_new.is_deleted h i) = false := by
    rw [← Bool.not_eq_true]
    exact fun hc => hbad ((validation_check_iff before after_p after_new h i).1 hc)
  unfold validation_loop_of
  rw [hv]
  exact validation_loop_finds hB hn i (i % B) i (by omega) hle hi (Nat.mod_mod _ _).symm hcheck

theorem validation_loop_of_returns {B : Nat} (hB : 0 < B) (before after_p after_new : PatchInfo)
    (h : HandleType) (hnw : before.get_num_elements h + B ≤ U16)
    (hkept : ActivityKept before after_p after_new h) (t : Nat) :
    ∃ fuel, validation_loop_of B before after_p after_new h fuel t = .passed := by
  unfold validation_loop_of
  exact validation_loop_returns hB hnw _ (t % U16) le_rfl (fun i _ hin _ =>
    (validation_check_iff before after_p after_new h i).2 (hkept i hin))

theorem validation_loop_of_mono {B : Nat} (before after_p after_new : PatchInfo)
    (h : HandleType) (fuel fuel' t : Nat) (r : CheckResult)
    (hr : validation_loop_of B before after_p after_new h fuel t = r) (hne : r ≠ .running)
    (hle : fuel ≤ fuel') :
    validation_loop_of B before after_p after_new h fuel' t = r :=
  validation_loop_mono fuel _ r hr hne fuel' hle

theorem debug_validation_thread_passed {B : Nat} (before after_p after_new : PatchInfo)
    (fuel t : Nat)
    (h : debug_validation_thread B before after_p after_new fuel t = .passed) :
    ∀ k, validation_loop_of B before after_p after_new k fuel t = .passed := by
  unfold debug_validation_thread at h
  cases hv : validation_loop_of B before after_p after_new .VertexHandle fuel t <;>
    rw [hv] at h <;> simp only at h <;> try cases h
  cases he : validation_loop_of B before after_p after_new .EdgeHandle fuel t <;>
    rw [he] at h <;> simp only at h <;> try cases h
  intro k
  cases k
  · exact hv
  · exact he
  · exact h

theorem debug_validation_thread_failed {B : Nat} (before after_p after_new : PatchInfo)
    (fuel t : Nat)
    (h : debug_validation_thread B before after_p after_new fuel t = .assert_failed) :
    ∃ k, validation_loop_of B before after_p after_new k fuel t = .assert_failed := by
  unfold debug_validation_thread at h
  cases hv : validation_loop_of B before after_p after_new .VertexHandle fuel t <;>
    rw [hv] at h <;> simp only at h <;> try cases h
  · cases he : validation_loop_of B before after_p after_new .EdgeHandle fuel t <;>
      rw [he] at h <;> simp only at h <;> try cases h
    · exact ⟨.FaceHandle, h⟩
    · exact ⟨.EdgeHandle, he⟩
  · exact ⟨.VertexHandle, hv⟩

theorem not_activityKept {before after_p after_new : PatchInfo} {h : HandleType}
    (hk : ¬ ActivityKept before after_p after_new h) :
    ∃ i, i < before.get_num_elements h ∧
      ¬ ((before.active_mask h i = true →
        after_p.active_mask h i = true ∨ after_new.active_mask h i = true) ∧
      (before.active_mask h i = false →
        after_p.active_mask h i = false ∧ after_new.active_mask h i = false)) := by
  unfold ActivityKept at hk
  by_contra hcon
  apply hk
  intro i hi
  by_contra hbad
  exact hcon ⟨i, hi, hbad⟩

/-- C4, as amended (debug validation): in a block of `blockThreads > 0` threads, the
validation passes only if, for every vertex, edge and face index below the pre-slice count,
an element that was active before the slice is active in the original or in the new patch
afterwards (in at least one of them) and an element that was inactive is inactive in both;
an assertion fails only in a state violating this; and every state violating this makes an
assertion fail when the vertex and edge counts are at most `2^16 - blockThreads`. -/
theorem debug_validation_checks (blockThreads : Nat) (before after_p after_new : PatchInfo)
    (hB : 0 < blockThreads) :
    (validation_passes blockThreads before after_p after_new →
      ∀ h, ActivityKept before after_p after_new h) ∧
    (validation_fails blockThreads before after_p after_new →
      ∃ h, ¬ ActivityKept before after_p after_new h) ∧
    (before.get_num_elements .VertexHandle + blockThreads ≤ U16 →
      before.get_num_elements .EdgeHandle + blockThreads ≤ U16 →
      (∃ h, ¬ ActivityKept before after_p after_new h) →
      validation_fails blockThreads before after_p after_new) := by
  refine ⟨?_, ?_, ?_⟩
  · intro hpass h i hi
    obtain ⟨fuel, hf⟩ := hpass (i % blockThreads) (Nat.mod_lt _ hB)
    exact validation_loop_of_passed before after_p after_new h fuel i hi
      (debug_validation_thread_passed before after_p after_new fuel _ hf h)
  · rintro ⟨t, _, fuel, hf⟩
    obtain ⟨k, hk⟩ := debug_validation_thread_failed before after_p after_new fuel t hf
    obtain ⟨i, hi, hcheck⟩ := validation_loop_failed fuel _ hk
    refine ⟨k, fun hkept => ?_⟩
    have := (validation_check_iff before after_p after_new k i).2 (hkept i hi)
    rw [this] at hcheck
    cases hcheck
  · intro hv he hbad
    by_cases kv : ActivityKept before after_p after_new .VertexHandle
    · by_cases ke : ActivityKept before after_p after_new .EdgeHandle
      · -- the violation is among the faces
        have kf : ¬ ActivityKept before after_p after_new .FaceHandle := by
          obtain ⟨h, hh⟩ := hbad
          cases h
          · exact absurd kv hh
          · exact absurd ke hh
          · exact hh
        obtain ⟨i, hi, hbadi⟩ := not_activityKept kf
        obtain ⟨f1, h1⟩ := validation_loop_of_returns hB before after_p after_new _ hv kv
          (i % blockThreads)
        obtain ⟨f2, h2⟩ := validation_loop_of_returns hB before after_p after_new _ he ke
          (i % blockThreads)
        obtain ⟨f3, h3⟩ := validation_loop_of_finds hB before after_p after_new _ i hi hbadi
        refine ⟨i % blockThreads, Nat.mod_lt _ hB, max f1 (max f2 f3), ?_⟩
        unfold debug_validation_thread
        rw [validation_loop_of_mono before after_p after_new _ f1 _ _ _ h1 (by decide)
            (le_max_left _ _),
          validation_loop_of_mono before after_p after_new _ f2 _ _ _ h2 (by decide)
            (le_trans (le_max_left _ _) (le_max_right _ _)),
          validation_loop_of_mono before after_p after_new _ f3 _ _ _ h3 (by decide)
            (le_trans (le_max_right _ _) (le_max_right _ _))]
      · obtain ⟨i, hi, hbadi⟩ := not_activityKept ke
        obtain ⟨f1, h1⟩ := validation_loop_of_returns hB before after_p after_new _ hv kv
          (i % blockThreads)
        obtain ⟨f2, h2⟩ := validation_loop_of_finds hB before after_p after_new _ i hi hbadi
        refine ⟨i % blockThreads, Nat.mod_lt _ hB, max f1 f2, ?_⟩
        unfold debug_validation_thread
        rw [validation_loop_of_mono before after_p after_new _ f1 _ _ _ h1 (by decide)
            (le_max_left _ _),
          validation_loop_of_mono before after_p after_new _ f2 _ _ _ h2 (by decide)
            (le_max_right _ _)]
    · obtain ⟨i, hi, hbadi⟩ := not_activityKept kv
      obtain ⟨f1, h1⟩ := validation_loop_of_finds hB before after_p after_new _ i hi hbadi
      refine ⟨i % blockThreads, Nat.mod_lt _ hB, f1, ?_⟩
      unfold debug_validation_thread
      rw [h1]

/-- Witness of C4 as amended: with two threads, a slice that leaves every element active in
the original patch passes the validation, and a slice that loses face 1 (inactive in both
patches afterwards) makes an assertion fail. -/
theorem debug_validation_checks_witness :
    (∀ h, ActivityKept patch_5_7_3 patch_5_7_3 patch_empty h) ∧
    validation_fails 2 patch_5_7_3 patch_lost_face patch_empty :=
  ⟨(debug_validation_checks 2 patch_5_7_3 patch_5_7_3 patch_empty (by decide)).1
      (fun t ht => ⟨5, by
        have ht2 : t = 0 ∨ t = 1 := by omega
        rcases ht2 with rfl | rfl <;> decide⟩),
    (debug_validation_checks 2 patch_5_7_3 patch_lost_face patch_empty (by decide)).2.2
      (by decide) (by decide)
      ⟨.FaceHandle, fun hk => by
        have h1 := (hk 1 (by decide)).1 (by decide)
        revert h1
        decide⟩⟩

/-- Counterexample to C4 as stated: when every element is active in both patches after the
slice (as a shared element is), the validation passes although the vertices are not active
in exactly one of the two patches. -/
theorem debug_validation_accepts_active_in_both :
    validation_passes 2 patch_5_7_3 patch_5_7_3 patch_5_7_3 ∧
    ¬ ActivityPartition patch_5_7_3 patch_5_7_3 patch_5_7_3 .VertexHandle :=
  ⟨fun t ht => ⟨5, by
      have ht2 : t = 0 ∨ t = 1 := by omega
      rcases ht2 with rfl | rfl <;> decide⟩,
    fun hp => by
      have h1 := (hp 0 (by decide)).1 (by decide)
      revert h1
      decide⟩

/-! ## The strided loop of one thread -/

/-- In a run of the block the counter of a thread depends only on the number of loop
iterations the schedule gave to that thread. -/
theorem post_slicing_run_vp {α : Type} (B n pid new : Nat) (change : Bitmask) (t : Nat)
    (sched : List Nat) (s : LoopState α) :
    (post_slicing_run B n pid new change sched s).vp t =
      (s.vp t).bind (thread_counter B n (sched.count t)) := by
  induction sched generalizing s with
  | nil =>
    simp only [post_slicing_run, List.foldl_nil, List.count_nil]
    cases s.vp t <;> rfl
  | cons u rest ih =>
    have hrun : post_slicing_run B n pid new change (u :: rest) s =
        post_slicing_run B n pid new change rest
          (post_slicing_thread_step B n pid new change u s) := rfl
    rw [hrun, ih]
    by_cases hut : u = t
    · subst hut
      rw [List.count_cons_self]
      rcases post_slicing_thread_step_cases B n pid new change u s with
        ⟨e0, e⟩ | ⟨w, e0, hw, e⟩ | ⟨w, e0, hw, _, e⟩ | ⟨w, e0, hw, _, e⟩
      · rw [e, e0]; rfl
      · rw [e, e0]; simp [thread_counter, hw]
      · rw [e, e0]; simp [thread_counter, hw]
      · rw [e, e0]; simp [thread_counter, hw]
    · rw [post_slicing_thread_step_vp_other B n pid new change hut s,
        List.count_cons_of_ne (Ne.symm hut)]

/-- When `2^16` is a multiple of the stride, a counter of residue `t` is at most
`2^16 - blockThreads + t`. -/
theorem counter_le_of_dvd {B v : Nat} (hdvd : B ∣ U16) (hv : v < U16) :
    v + B ≤ U16 + v % B := by
  obtain ⟨m, hm⟩ := hdvd
  have h1 : B * (v / B) + v % B = v := Nat.div_add_mod v B
  have h2 : v / B < m := by
    apply Nat.div_lt_of_lt_mul
    rw [← hm]
    exact hv
  have h3 : B * (v / B + 1) ≤ B * m := Nat.mul_le_mul_left B h2
  rw [Nat.mul_succ, ← hm] at h3
  omega

theorem next_vp_mod_of_dvd {B : Nat} (hdvd : B ∣ U16) (v : Nat) :
    next_vp B v % B = v % B := by
  unfold next_vp
  rw [Nat.mod_mod_of_dvd _ hdvd, Nat.add_mod_right]

theorem next_vp_lt (B v : Nat) : next_vp B v < U16 :=
  Nat.mod_lt _ (by decide)

/-- The residue of the counter modulo the stride is kept by `vp += blockThreads` when `2^16`
is a multiple of the stride or when the counter cannot wrap. -/
theorem next_vp_mod {B n v : Nat} (h : B ∣ U16 ∨ n + B ≤ U16) (hv : v < n) :
    next_vp B v % B = v % B := by
  rcases h with hdvd | hnw
  · exact next_vp_mod_of_dvd hdvd v
  · have hnext : next_vp B v = v + B := Nat.mod_eq_of_lt (by omega)
    rw [hnext, Nat.add_mod_right]

/-- A thread whose residue class reaches up to the count never leaves the loop when `2^16`
is a multiple of the stride. -/
theorem thread_counter_stuck {B n t : Nat} (hdvd : B ∣ U16) (hbig : U16 + t < n + B) :
    ∀ fuel v, v % B = t → v < U16 →
      ∃ w, thread_counter B n fuel v = some w ∧ w % B = t ∧ w < U16 := by
  intro fuel
  induction fuel with
  | zero => intro v hmod hv; exact ⟨v, rfl, hmod, hv⟩
  | succ fuel ih =>
    intro v hmod hv
    have hle := counter_le_of_dvd hdvd hv
    have hvn : v < n := by omega
    simp only [thread_counter, hvn, if_true]
    exact ih (next_vp B v) (by rw [next_vp_mod_of_dvd hdvd, hmod]) (next_vp_lt B v)

/-- Every index at which a thread runs the body is below the count and in the residue class
of the start, when `2^16` is a multiple of the stride or the counter cannot wrap. -/
theorem mem_thread_indices {B n : Nat} (h : B ∣ U16 ∨ n + B ≤ U16) :
    ∀ fuel v i, i ∈ thread_indices B n fuel v → i < n ∧ i % B = v % B := by
  intro fuel
  induction fuel with
  | zero => intro v i hi; simp [thread_indices] at hi
  | succ fuel ih =>
    intro v i hi
    simp only [thread_indices] at hi
    split at hi
    · rename_i hvn
      rcases List.mem_cons.1 hi with heq | hmem
      · subst heq; exact ⟨hvn, rfl⟩
      · obtain ⟨h1, h2⟩ := ih _ i hmem
        exact ⟨h1, h2.trans (next_vp_mod h hvn)⟩
    · simp at hi

/-- On its first sweep a thread reaches every index of its residue class between its start
and the count. -/
theorem thread_indices_covers {B n : Nat} (hB : 0 < B) (hn : n ≤ U16) :
    ∀ d v i, i - v ≤ d → v ≤ i → i < n → i % B = v % B →
      i ∈ thread_indices B n (d + 1) v := by
  intro d
  induction d with
  | zero =>
    intro v i hd hvi hin _
    have : i = v := by omega
    subst this
    simp [thread_indices, hin]
  | succ d ih =>
    intro v i hd hvi hin hmod
    have hvn : v < n := by omega
    rw [thread_indices]
    simp only [hvn, if_true]
    rcases Nat.eq_or_lt_of_le hvi with heq | hlt
    · subst heq; exact List.mem_cons_self _ _
    · have hge : v + B ≤ i := by
        by_contra hcon
        have := le_of_mod_eq_of_lt_add hmod (by omega)
        omega
      have hnext : next_vp B v = v + B := Nat.mod_eq_of_lt (by omega)
      rw [hnext]
      exact List.mem_cons_of_mem _
        (ih (v + B) i (by omega) hge hin (by rw [Nat.add_mod_right]; exact hmod))

/-- The indices handled by worker `t` are the indices below the count that are congruent to
`t`, under the side condition on the stride. -/
theorem worker_handles_iff {B n : Nat} (hB : 0 < B) (hn : n < U16)
    (h : B ∣ U16 ∨ n + B ≤ U16) (t i : Nat) (ht : t < B) :
    (∃ fuel, i ∈ worker_indices B n fuel t) ↔ (i < n ∧ i % B = t) := by
  have hB16 : B ≤ U16 := by
    rcases h with hdvd | hnw
    · exact Nat.le_of_dvd (by decide) hdvd
    · omega
  have ht16 : t % U16 = t := Nat.mod_eq_of_lt (by omega)
  constructor
  · rintro ⟨fuel, hmem⟩
    unfold worker_indices at hmem
    rw [ht16] at hmem
    obtain ⟨h1, h2⟩ := mem_thread_indices h fuel t i hmem
    exact ⟨h1, h2.trans (Nat.mod_eq_of_lt ht)⟩
  · rintro ⟨hin, hmod⟩
    refine ⟨i - t + 1, ?_⟩
    unfold worker_indices
    rw [ht16]
    have hti : t ≤ i := by
      rw [← hmod]; exact Nat.mod_le _ _
    exact thread_indices_covers hB hn.le (i - t) t i le_rfl hti hin
      (hmod.trans (Nat.mod_eq_of_lt ht).symm)

/-- The work partition holds for every block size `B > 0` such that `2^16` is a multiple of
`B` or the counter cannot wrap, and every 16-bit count. -/
theorem work_partition_of_stride {B n : Nat} (hB : 0 < B) (hn : n < U16)
    (hstride : B ∣ U16 ∨ n + B ≤ U16) : WorkPartition B n := by
  have key := fun t i ht => worker_handles_iff hB hn hstride t i ht
  refine ⟨key, ?_, ?_⟩
  · intro t u i fuel fuel' ht hu htu h1 h2
    have e1 := ((key t i ht).1 ⟨fuel, h1⟩).2
    have e2 := ((key u i hu).1 ⟨fuel', h2⟩).2
    exact htu (e1.symm.trans e2)
  · intro i hi
    exact ⟨i % B, Nat.mod_lt _ hB, (key (i % B) i (Nat.mod_lt _ hB)).2 ⟨hi, rfl⟩⟩

/-- C12 (work partition of the relocation loop): with the `B = blockThreads = 256` workers
of the slicing launch and for every element count, worker `t` handles exactly the local
indices `vp < num_elements` with `vp mod B = t`, the index sets of two distinct workers are
disjoint, and their union is the whole range `[0, num_elements)`; hence no two workers write
a slot of the same index and every element below the count is examined.  The same holds for
every block size `B > 0` such that `2^16` is a multiple of `B` or
`num_elements + B <= 2^16`. -/
theorem relocation_work_partition (pi : PatchInfo) (h : HandleType) :
    ((∀ t i, t < 256 →
        ((∃ fuel, i ∈ worker_indices 256 (pi.get_num_elements h) fuel t) ↔
          (i < pi.get_num_elements h ∧ i % 256 = t))) ∧
      (∀ t u i fuel fuel', t < 256 → u < 256 → t ≠ u →
        i ∈ worker_indices 256 (pi.get_num_elements h) fuel t →
        i ∉ worker_indices 256 (pi.get_num_elements h) fuel' u) ∧
      (∀ i, i < pi.get_num_elements h →
        ∃ t, t < 256 ∧ ∃ fuel, i ∈ worker_indices 256 (pi.get_num_elements h) fuel t)) ∧
    (∀ blockThreads, 0 < blockThreads →
      (blockThreads ∣ U16 ∨ pi.get_num_elements h + blockThreads ≤ U16) →
      WorkPartition blockThreads (pi.get_num_elements h)) :=
  ⟨work_partition_of_stride (by decide) (get_num_elements_lt pi h) (Or.inl (by decide)),
    fun _ hB hstride => work_partition_of_stride hB (get_num_elements_lt pi h) hstride⟩

/-- Witness of C12: with 256 workers and 65535 vertices, the last index of the residue class
of worker 0, 65280, is handled by worker 0 and by no fuel of worker 1, and index 65534 is
handled by worker 254. -/
theorem relocation_work_partition_witness :
    (∃ fuel, 65280 ∈ worker_indices 256 65535 fuel 0) ∧
    (∀ fuel, 65280 ∉ worker_indices 256 65535 fuel 1) ∧
    (∃ fuel, 65534 ∈ worker_indices 256 65535 fuel 254) :=
  ⟨((relocation_work_partition patch_65535 .VertexHandle).1.1 0 65280 (by decide)).2
      (by decide),
    fun fuel hmem =>
      (relocation_work_partition patch_65535 .VertexHandle).1.2.1 1 0 65280 fuel 65281
        (by decide) (by decide) (by decide) hmem
        (thread_indices_covers (by decide) (by decide) 65280 0 65280 (by decide) (by decide)
          (by decide) (by decide)),
    ((relocation_work_partition patch_65535 .VertexHandle).1.1 254 65534 (by decide)).2
      (by decide)⟩

/-! ## The loops under wrap-around -/

/-- While every check holds, a validation loop stands where the counter of its thread
stands. -/
theorem validation_loop_eq_counter {B n : Nat} {was p q : Bitmask}
    (hall : ∀ i, i < n → validation_check (was i) (p i) (q i) = true) :
    ∀ fuel v, validation_loop B n was p q fuel v =
      match thread_counter B n fuel v with
      | none => .passed
      | some _ => .running := by
  intro fuel
  induction fuel with
  | zero => intro v; rfl
  | succ fuel ih =>
    intro v
    by_cases hvn : v < n
    · simp only [validation_loop, thread_counter, hvn, if_true, hall v hvn]
      exact ih _
    · simp only [validation_loop, thread_counter, hvn, if_false]

/-- When `2^16` is a multiple of the block size and the count exceeds
`2^16 - blockThreads`, thread 0 never leaves the relocation loop: the call does not return
under any interleaving. -/
theorem post_slicing_update_attributes_stuck {α : Type} {B : Nat} (hdvd : B ∣ U16)
    (hB : 0 < B) (pi : PatchInfo) (new : Nat) (cv ce cf : Bitmask) (a : Attribute α)
    (hbig : U16 < pi.get_num_elements a.handle + B) (sched : List Nat) :
    post_slicing_update_attributes B sched pi new cv ce cf a = none := by
  unfold post_slicing_update_attributes
  simp only
  split
  · rename_i hdone
    rw [all_threads_done_iff] at hdone
    have h0 := hdone 0 hB
    rw [post_slicing_run_vp] at h0
    have hinit : (post_slicing_init B a).vp 0 = some 0 := by
      simp [post_slicing_init, hB]
    rw [hinit] at h0
    have hbig0 : U16 + 0 < pi.get_num_elements a.handle + B := by omega
    obtain ⟨w, hw, _⟩ := thread_counter_stuck hdvd hbig0
      (sched.count 0) 0 (Nat.zero_mod _) (by decide)
    simp only [Option.bind] at h0
    rw [hw] at h0
    cases h0
  · rfl

/-- Without wrap-around (`num_elements + blockThreads <= 2^16`) a thread whose counter is
`k` strides away from the count runs the body at most `k` times and has left the loop after
`k + 1` loop tests. -/
theorem strided_loop_ends_nowrap {B n : Nat} (hnw : n + B ≤ U16) :
    ∀ k v, n ≤ v + k * B →
      thread_counter B n (k + 1) v = none ∧
      ∀ fuel, (thread_indices B n fuel v).length ≤ k := by
  intro k
  induction k with
  | zero =>
    intro v hk
    have hvn : ¬ v < n := by omega
    refine ⟨by simp [thread_counter, hvn], ?_⟩
    intro fuel
    cases fuel <;> simp [thread_indices, hvn]
  | succ k ih =>
    intro v hk
    by_cases hvn : v < n
    · have hnext : next_vp B v = v + B := Nat.mod_eq_of_lt (by omega)
      have hk' : n ≤ (v + B) + k * B := by rw [Nat.succ_mul] at hk; omega
      obtain ⟨h1, h2⟩ := ih (v + B) hk'
      refine ⟨?_, ?_⟩
      · rw [thread_counter]
        simp only [hvn, if_true, hnext]
        exact h1
      · intro fuel
        cases fuel with
        | zero => simp [thread_indices]
        | succ fuel =>
          simp only [thread_indices, hvn, if_true, hnext, List.length_cons]
          exact Nat.succ_le_succ (h2 fuel)
    · refine ⟨?_, ?_⟩
      · rw [thread_counter]
        simp only [hvn, if_false]
      · intro fuel
        cases fuel <;> simp [thread_indices, hvn]

/-- Without wrap-around every thread runs the body at most `ceil(num_elements /
blockThreads)` times and then leaves the loop. -/
theorem strided_loop_bound_nowrap {B n : Nat} (hB : 0 < B) (hnw : n + B ≤ U16) (t : Nat)
    (ht : t < B) :
    thread_counter B n ((n + B - 1) / B + 1) (t % U16) = none ∧
    ∀ fuel, (worker_indices B n fuel t).length ≤ (n + B - 1) / B := by
  have hceil : n ≤ (n + B - 1) / B * B := by
    have h1 := Nat.div_add_mod (n + B - 1) B
    have h2 := Nat.mod_lt (n + B - 1) hB
    rw [Nat.mul_comm] at h1
    omega
  have _ := ht
  exact strided_loop_ends_nowrap hnw ((n + B - 1) / B) (t % U16) (by omega)

set_option maxRecDepth 100000 in
/-- C14 at the failing input: with 256 threads and a count of 65535, the counter of thread 0
goes from 65280 to `0` (`65280 + 256` wraps modulo `2^16`), index 0 is visited a second time
at the 257th iteration, the loop test never fails, `post_slicing_update_attributes` returns
under no interleaving and the debug validation of thread 0 stays in its first loop. -/
theorem strided_loops_wrap_at_65535 :
    next_vp 256 65280 = 0 ∧
    (worker_indices 256 65535 257 0).count 0 = 2 ∧
    (∀ fuel, thread_counter 256 65535 fuel 0 ≠ none) ∧
    (∀ sched, post_slicing_update_attributes 256 sched patch_65535 1 even_masks.v
      even_masks.e even_masks.f vertex_attr = none) ∧
    (∀ fuel, debug_validation_thread 256 patch_65535 patch_65535 patch_65535 fuel 0 =
      .running) := by
  refine ⟨by decide, by decide, ?_, ?_, ?_⟩
  · intro fuel hnone
    obtain ⟨w, hw, _⟩ := thread_counter_stuck (B := 256) (n := 65535) (t := 0) (by decide)
      (by decide) fuel 0 (by decide) (by decide)
    rw [hw] at hnone
    cases hnone
  · intro sched
    exact post_slicing_update_attributes_stuck (by decide) (by decide) patch_65535 1 _ _ _
      vertex_attr (by decide) sched
  · intro fuel
    obtain ⟨w, hw, _⟩ := thread_counter_stuck (B := 256) (n := 65535) (t := 0) (by decide)
      (by decide) fuel 0 (by decide) (by decide)
    have hloop : validation_loop_of 256 patch_65535 patch_65535 patch_65535 .VertexHandle
        fuel 0 = .running := by
      unfold validation_loop_of
      rw [validation_loop_eq_counter (fun i _ => by
        simp [validation_check, PatchInfo.is_deleted, PatchInfo.active_mask, patch_65535,
          mk_patch])]
      have hn : patch_65535.get_num_elements .VertexHandle = 65535 := by decide
      rw [hn, show (0 % U16) = 0 by decide, hw]
    unfold debug_validation_thread
    rw [hloop]

/-- When `2^16` is a multiple of the block size and the count of one array of the pack
exceeds `2^16 - blockThreads`, the fold over the pack returns under no interleaving. -/
theorem relocate_attributes_stuck {α : Type} {B : Nat} (hdvd : B ∣ U16) (hB : 0 < B)
    (pi : PatchInfo) (new : Nat) (change : Masks) (attributes : List (Attribute α))
    (hbig : ∃ a, a ∈ attributes ∧ U16 < pi.get_num_elements a.handle + B) :
    ∀ scheds, relocate_attributes B pi new change scheds attributes = none := by
  induction attributes with
  | nil =>
    obtain ⟨a, ha, _⟩ := hbig
    cases ha
  | cons a rest ih =>
    intro scheds
    simp only [relocate_attributes]
    by_cases hbiga : U16 < pi.get_num_elements a.handle + B
    · rw [post_slicing_update_attributes_stuck hdvd hB pi new _ _ _ a hbiga]
    · have hrest : ∃ b, b ∈ rest ∧ U16 < pi.get_num_elements b.handle + B := by
        obtain ⟨b, hb, hbb⟩ := hbig
        rcases List.mem_cons.1 hb with heq | hmem
        · subst heq; exact absurd hbb hbiga
        · exact ⟨b, hmem, hbb⟩
      rw [ih hrest scheds.tail]
      split <;> rfl

/-- C9 at the failing input: with the 256 threads of the slicing launch and a patch of 65535
vertices and 3 faces, the fold over a vertex array and a face array returns under no
interleaving, in either order of the two arrays: thread 0 never leaves the loop of the
vertex array, so the relocation does not run to its end for every array of the list.  On a
patch with 5 vertices, 7 edges and 3 faces the same fold returns with the vertex array
relocated at vertex 2 (vertex mask, vertex count 5), the edge array at edge 6 (edge mask,
edge count 7) and the face array at face 1 (face mask, face count 3). -/
theorem relocate_attributes_stuck_at_65535 :
    (∀ scheds, relocate_attributes 256 patch_65535_faces 1 type_masks scheds
      [vertex_attr, face_attr] = none) ∧
    (∀ scheds, relocate_attributes 256 patch_65535_faces 1 type_masks scheds
      [face_attr, vertex_attr] = none) ∧
    (relocate_attributes 2 patch_5_7_3 7 type_masks
        [sequential_schedule 2 6, sequential_schedule 2 8, sequential_schedule 2 4]
        [vertex_attr, edge_attr, face_attr]).map
      (fun l => l.map (fun a => [a.data 7 1 0, a.data 7 2 0, a.data 7 4 0, a.data 7 6 0])) =
      some [[0, 120, 0, 0], [0, 0, 0, 306], [501, 0, 0, 0]] := by
  refine ⟨?_, ?_, by decide⟩
  · exact relocate_attributes_stuck (by decide) (by decide) patch_65535_faces 1 type_masks _
      ⟨vertex_attr, List.mem_cons_self _ _, by decide⟩
  · exact relocate_attributes_stuck (by decide) (by decide) patch_65535_faces 1 type_masks _
      ⟨vertex_attr, List.mem_cons_of_mem _ (List.mem_cons_self _ _), by decide⟩

/-! ## Frame of the relocation -/

/-- At every point of every interleaving, a slot outside the relocation footprint holds its
initial value, and the handle type and attribute count of the array are kept. -/
theorem post_slicing_run_frame {α : Type} (B : Nat) (pi : PatchInfo) (new : Nat)
    (cv ce cf : Bitmask) (a : Attribute α) (sched : List Nat) :
    let s := post_slicing_run B (pi.get_num_elements a.handle) pi.patch_id new
      (ownership_change a.handle cv ce cf) sched (post_slicing_init B a)
    s.attrib.handle = a.handle ∧ s.attrib.num_attributes = a.num_attributes ∧
      ∀ p i k, ¬ (p = new ∧ i < pi.get_num_elements a.handle ∧
          ownership_change a.handle cv ce cf i = true ∧ k < a.num_attributes) →
        s.attrib.data p i k = a.data p i k := by
  intro s
  obtain ⟨hinit, hthreads⟩ := post_slicing_init_inv B (pi.get_num_elements a.handle)
    pi.patch_id new (ownership_change a.handle cv ce cf) a
  obtain ⟨⟨h1, h2, h3⟩, _⟩ := post_slicing_run_inv (get_num_elements_lt pi a.handle) sched _
    hinit hthreads
  refine ⟨h1, h2, ?_⟩
  intro p i k hout
  rcases h3 p i k with e | ⟨hp, hi, hc, hk, _⟩
  · exact e
  · exact absurd ⟨hp, hi, hc, hk⟩ hout

/-- C13 (frame of `post_slicing_update_attributes`): at every point of every interleaving,
and in particular when the call has returned, every slot other than the slots
`(new_patch_id, vp, attr)` with `vp` below the element count, the ownership-change bit of
`vp` set and `attr < get_num_attributes()` holds its previous value: every slot of the
original patch when `new_patch_id` differs from it, every slot of any other patch, and every
slot of the new patch whose ownership-change bit is clear.  The handle type and the
attribute count are kept; the patch and the masks are read-only arguments.  The call
returns when the count is at most `2^16 - blockThreads`. -/
theorem post_slicing_update_attributes_frame {α : Type} (blockThreads : Nat)
    (pi : PatchInfo) (new_patch_id : Nat) (cv ce cf : Bitmask) (attrib : Attribute α) :
    (∀ sched p i k,
      ¬ (p = new_patch_id ∧ i < pi.get_num_elements attrib.handle ∧
          ownership_change attrib.handle cv ce cf i = true ∧ k < attrib.num_attributes) →
      (post_slicing_run blockThreads (pi.get_num_elements attrib.handle) pi.patch_id
        new_patch_id (ownership_change attrib.handle cv ce cf) sched
        (post_slicing_init blockThreads attrib)).attrib.data p i k = attrib.data p i k) ∧
    (∀ sched attrib',
      post_slicing_update_attributes blockThreads sched pi new_patch_id cv ce cf attrib =
        some attrib' →
      attrib'.handle = attrib.handle ∧ attrib'.num_attributes = attrib.num_attributes ∧
      (∀ p i k,
        ¬ (p = new_patch_id ∧ i < pi.get_num_elements attrib.handle ∧
            ownership_change attrib.handle cv ce cf i = true ∧ k < attrib.num_attributes) →
        attrib'.data p i k = attrib.data p i k) ∧
      (new_patch_id ≠ pi.patch_id →
        ∀ i k, attrib'.data pi.patch_id i k = attrib.data pi.patch_id i k) ∧
      (∀ p i k, p ≠ new_patch_id → attrib'.data p i k = attrib.data p i k) ∧
      (∀ i k, ownership_change attrib.handle cv ce cf i = false →
        attrib'.data new_patch_id i k = attrib.data new_patch_id i k)) ∧
    (0 < blockThreads → pi.get_num_elements attrib.handle + blockThreads ≤ U16 →
      ∃ sched attrib',
        post_slicing_update_attributes blockThreads sched pi new_patch_id cv ce cf attrib =
          some attrib') := by
  refine ⟨?_, ?_, ?_⟩
  · intro sched p i k hout
    exact (post_slicing_run_frame blockThreads pi new_patch_id cv ce cf attrib sched).2.2
      p i k hout
  · intro sched attrib' hrun
    have hframe := post_slicing_run_frame blockThreads pi new_patch_id cv ce cf attrib sched
    unfold post_slicing_update_attributes at hrun
    simp only at hrun
    split at hrun
    · cases hrun
      obtain ⟨h1, h2, h3⟩ := hframe
      refine ⟨h1, h2, h3, ?_, ?_, ?_⟩
      · intro hne i k
        exact h3 _ i k (fun hc => hne hc.1.symm)
      · intro p i k hp
        exact h3 p i k (fun hc => hp hc.1)
      · intro i k hclear
        refine h3 _ i k (fun hc => ?_)
        rw [hclear] at hc
        exact absurd hc.2.2.1 (by decide)
    · cases hrun
  · intro hB hnw
    exact ⟨_, _, post_slicing_update_attributes_sequential hB pi new_patch_id cv ce cf attrib hnw⟩

/-- Witness of C13: after the relocation of the vertex array from patch 0 to patch 7 in a
block of two threads, vertex 2 (bit set) has moved, vertex 3 (bit clear) of patch 7, the
slots of patch 0 and the slots of patch 5 are as before. -/
theorem post_slicing_update_attributes_frame_witness :
    ∃ attrib',
      post_slicing_update_attributes 2 (sequential_schedule 2 6) patch_5_7_3 7 even_masks.v
        even_masks.e even_masks.f vertex_attr = some attrib' ∧
      attrib'.data 7 3 1 = 0 ∧ attrib'.data 0 2 1 = 121 ∧ attrib'.data 5 2 1 = 0 ∧
      attrib'.data 7 2 1 = 121 := by
  have hrun := post_slicing_update_attributes_sequential (B := 2) (by decide) patch_5_7_3 7
    even_masks.v even_masks.e even_masks.f vertex_attr (by decide)
  have hframe := (post_slicing_update_attributes_frame 2 patch_5_7_3 7 even_masks.v
    even_masks.e even_masks.f vertex_attr).2.1 _ _ hrun
  refine ⟨_, hrun, ?_, ?_, ?_, ?_⟩
  · exact (hframe.2.2.2.2.2 3 1 (by decide)).trans (by decide)
  · exact (hframe.2.2.2.1 (by decide) 2 1).trans (by decide)
  · exact (hframe.2.2.2.2.1 5 2 1 (by decide)).trans (by decide)
  · decide

/-! ## Scratch memory of the slicing launch -/

theorem align_up_le (P : Platform) (x : Nat) :
    align_up P x ≤ x + (P.default_alignment - 1) := by
  unfold align_up
  have := Nat.div_mul_le_self (x + P.default_alignment - 1) P.default_alignment
  omega

theorem align_up_of_dvd (P : Platform) (x : Nat) (h : P.default_alignment ∣ x) :
    align_up P x = x := by
  unfold align_up
  obtain ⟨q, rfl⟩ := h
  rcases Nat.eq_zero_or_pos P.default_alignment with h0 | hpos
  · simp [h0]
  · have h1 : P.default_alignment * q + P.default_alignment - 1 =
        P.default_alignment * q + (P.default_alignment - 1) := by omega
    rw [h1, Nat.mul_add_div hpos, Nat.div_eq_of_lt (by omega), Nat.add_zero, Nat.mul_comm]

theorem slice_patches_kernel_shmem_eq (P : Platform) (pi : PatchInfo) :
    slice_patches_kernel_shmem P pi =
      align_up P ((2 * pi.get_num_elements .EdgeHandle) * 2) +
      align_up P ((3 * pi.get_num_elements .FaceHandle) * 2) +
      align_up P (P.stash_size * 4) +
      5 * align_up P (P.mask_num_bytes (pi.get_num_elements .VertexHandle)) +
      5 * align_up P (P.mask_num_bytes (pi.get_num_elements .EdgeHandle)) +
      5 * align_up P (P.mask_num_bytes (pi.get_num_elements .FaceHandle)) := by
  simp only [slice_patches_kernel_shmem, slice_patches_allocations, List.replicate,
    List.cons_append, List.nil_append, List.map_cons, List.map_nil, List.sum_cons,
    List.sum_nil]
  omega

/-- The sum of the rounded-up sub-allocations is at most the sum computed by the host. -/
theorem slice_patches_kernel_le_requested (P : Platform) (m : RXMeshDynamic) (pi : PatchInfo)
    (hv : pi.get_num_elements .VertexHandle ≤ m.m_max_vertices_per_patch)
    (he : pi.get_num_elements .EdgeHandle ≤ m.m_max_edges_per_patch)
    (hf : pi.get_num_elements .FaceHandle ≤ m.m_max_faces_per_patch)
    (hmono : ∀ a b, a ≤ b → P.mask_num_bytes a ≤ P.mask_num_bytes b)
    (halign : P.default_alignment ≤ 18 ∨ P.default_alignment ∣ P.stash_size * 4) :
    slice_patches_kernel_shmem P pi ≤ slice_patches_requested P m := by
  rw [slice_patches_kernel_shmem_eq]
  simp only [slice_patches_requested]
  have mv := hmono _ _ hv
  have me := hmono _ _ he
  have mf := hmono _ _ hf
  have u1 := align_up_le P ((2 * pi.get_num_elements .EdgeHandle) * 2)
  have u2 := align_up_le P ((3 * pi.get_num_elements .FaceHandle) * 2)
  have u3 := align_up_le P (P.stash_size * 4)
  have u4 := align_up_le P (P.mask_num_bytes (pi.get_num_elements .VertexHandle))
  have u5 := align_up_le P (P.mask_num_bytes (pi.get_num_elements .EdgeHandle))
  have u6 := align_up_le P (P.mask_num_bytes (pi.get_num_elements .FaceHandle))
  rcases halign with hsmall | hdvd
  · omega
  · have u3' := align_up_of_dvd P _ hdvd
    omega

/-- With 8-byte alignment, 16-bit per-patch maxima and 16-bit values of `stash_size` and
`mask_num_bytes`, the sum computed by the host fits the `uint32_t dyn_shmem`. -/
theorem slice_patches_requested_lt (P : Platform) (m : RXMeshDynamic)
    (halign : P.default_alignment = 8) (hstash : P.stash_size < U16)
    (hbytes : ∀ n, n < U16 → P.mask_num_bytes n < U16)
    (hmax_v : m.m_max_vertices_per_patch < U16) (hmax_e : m.m_max_edges_per_patch < U16)
    (hmax_f : m.m_max_faces_per_patch < U16) :
    slice_patches_requested P m < U32 := by
  have bv := hbytes _ hmax_v
  have be := hbytes _ hmax_e
  have bf := hbytes _ hmax_f
  simp only [slice_patches_requested, halign]
  simp only [U16, U32] at *
  omega

theorem platform_8_mask_mono (a b : Nat) (h : a ≤ b) :
    platform_8.mask_num_bytes a ≤ platform_8.mask_num_bytes b := by
  simp only [platform_8]
  omega

theorem platform_8_mask_lt (n : Nat) (h : n < U16) : platform_8.mask_num_bytes n < U16 := by
  simp only [platform_8, U16] at *
  omega

/-- The bound for a platform with 8-byte alignment and 16-bit constants. -/
theorem slice_patches_shmem_le (P : Platform) (m : RXMeshDynamic) (pi : PatchInfo)
    (halign : P.default_alignment = 8) (hstash : P.stash_size < U16)
    (hmono : ∀ a b, a ≤ b → P.mask_num_bytes a ≤ P.mask_num_bytes b)
    (hbytes : ∀ n, n < U16 → P.mask_num_bytes n < U16)
    (hmax_v : m.m_max_vertices_per_patch < U16) (hmax_e : m.m_max_edges_per_patch < U16)
    (hmax_f : m.m_max_faces_per_patch < U16)
    (hv : pi.get_num_elements .VertexHandle ≤ m.m_max_vertices_per_patch)
    (he : pi.get_num_elements .EdgeHandle ≤ m.m_max_edges_per_patch)
    (hf : pi.get_num_elements .FaceHandle ≤ m.m_max_faces_per_patch) :
    slice_patches_kernel_shmem P pi ≤ slice_patches_dyn_shmem P m := by
  unfold slice_patches_dyn_shmem
  rw [Nat.mod_eq_of_lt
    (slice_patches_requested_lt P m halign hstash hbytes hmax_v hmax_e hmax_f)]
  exact slice_patches_kernel_le_requested P m pi hv he hf hmono
    (Or.inl (by rw [halign]; decide))

/-- C15 (scratch size of the slicing launch): for every mesh whose per-patch maxima are
16-bit counts and every patch with `num_vertices <= m_max_vertices_per_patch`,
`num_edges <= m_max_edges_per_patch` and `num_faces <= m_max_faces_per_patch`, the sum of
the 18 sub-allocations of the kernel (`2 * num_edges` and `3 * num_faces` 16-bit entries,
`stash_size` 32-bit entries and five bitmasks for each of vertices, edges and faces), each
rounded up to `default_alignment`, is at most the `dyn_shmem` passed to the launch.  This
holds for every platform with 8-byte alignment whose `mask_num_bytes` is monotone and whose
`stash_size` and `mask_num_bytes` are 16-bit quantities, and in particular for the platform
with a stash of 64 entries and bitmasks stored in 32-bit words. -/
theorem slice_patches_shmem_suffices (m : RXMeshDynamic) (pi : PatchInfo)
    (hmax_v : m.m_max_vertices_per_patch < U16) (hmax_e : m.m_max_edges_per_patch < U16)
    (hmax_f : m.m_max_faces_per_patch < U16)
    (hv : pi.get_num_elements .VertexHandle ≤ m.m_max_vertices_per_patch)
    (he : pi.get_num_elements .EdgeHandle ≤ m.m_max_edges_per_patch)
    (hf : pi.get_num_elements .FaceHandle ≤ m.m_max_faces_per_patch) :
    (∀ P : Platform, P.default_alignment = 8 → P.stash_size < U16 →
      (∀ a b, a ≤ b → P.mask_num_bytes a ≤ P.mask_num_bytes b) →
      (∀ n, n < U16 → P.mask_num_bytes n < U16) →
      slice_patches_kernel_shmem P pi ≤ slice_patches_dyn_shmem P m) ∧
    slice_patches_kernel_shmem platform_8 pi ≤ slice_patches_dyn_shmem platform_8 m :=
  ⟨fun P halign hstash hmono hbytes =>
      slice_patches_shmem_le P m pi halign hstash hmono hbytes hmax_v hmax_e hmax_f hv he hf,
    slice_patches_shmem_le platform_8 m pi rfl (by decide) platform_8_mask_mono
      platform_8_mask_lt hmax_v hmax_e hmax_f hv he hf⟩

/-- Witness of C15: with 8-byte alignment and a stash of 64 entries, the kernel takes 432
bytes for the patch with 5 vertices, 7 edges and 3 faces and the host requests 498 bytes
for a mesh with these maxima. -/
theorem slice_patches_shmem_suffices_witness :
    slice_patches_kernel_shmem platform_8 patch_5_7_3 ≤
        slice_patches_dyn_shmem platform_8 mesh_5_7_3 ∧
      slice_patches_kernel_shmem platform_8 patch_5_7_3 = 432 ∧
      slice_patches_dyn_shmem platform_8 mesh_5_7_3 = 498 :=
  ⟨(slice_patches_shmem_suffices mesh_5_7_3 patch_5_7_3 (by decide) (by decide) (by decide)
      (by decide) (by decide) (by decide)).2,
    by decide, by decide⟩

/-! ## The patch scheduler -/

theorem perm_cons_eraseIdx {β : Type} :
    ∀ (l : List β) (i : Nat) (a : β), l[i]? = some a → l.Perm (a :: l.eraseIdx i) := by
  intro l
  induction l with
  | nil => intro i a h; simp at h
  | cons b l ih =>
    intro i a h
    cases i with
    | zero =>
      simp only [List.getElem?_cons_zero, Option.some.injEq] at h
      subst h
      exact List.Perm.refl _
    | succ i =>
      simp only [List.getElem?_cons_succ] at h
      simp only [List.eraseIdx_cons_succ]
      exact ((ih i a h).cons b).trans (List.Perm.swap a b _)

/-- A `dequeue` delivers nothing from an empty queue and otherwise removes the delivered id
from the queue. -/
theorem dequeue_cases (s : PatchScheduler) (pick : Nat) :
    (s.queue = [] ∧ s.dequeue pick = (none, s)) ∨
    (∃ id s', s.dequeue pick = (some id, s') ∧ s'.live = s.live ∧
      s.queue.Perm (id :: s'.queue) ∧ s'.queue.length + 1 = s.queue.length) := by
  unfold PatchScheduler.dequeue
  cases hq : s.queue[pick % s.queue.length]? with
  | none =>
    left
    refine ⟨?_, rfl⟩
    rw [List.getElem?_eq_none_iff] at hq
    by_contra hne
    have hpos : 0 < s.queue.length := List.length_pos.2 hne
    have := Nat.mod_lt pick hpos
    omega
  | some id =>
    right
    refine ⟨id, _, rfl, rfl, perm_cons_eraseIdx _ _ _ hq, ?_⟩
    have hperm := (perm_cons_eraseIdx _ _ _ hq).length_eq
    simp only [List.length_cons] at hperm
    exact hperm.symm

/-- Whatever the interleaving, the ids delivered so far together with the ids still enqueued
are the ids enqueued at the start, and the queue has lost one id per delivery. -/
theorem consume_conserves (events : List (Nat × Nat)) (s : PatchScheduler) :
    ((consume events s).1.map Prod.snd ++ (consume events s).2.queue).Perm s.queue ∧
    (consume events s).2.live = s.live ∧
    (consume events s).2.queue.length = s.queue.length - events.length ∧
    (consume events s).1.length + (consume events s).2.queue.length = s.queue.length := by
  induction events generalizing s with
  | nil => simp [consume]
  | cons ev rest ih =>
    obtain ⟨consumer, pick⟩ := ev
    rcases dequeue_cases s pick with ⟨hempty, hd⟩ | ⟨id, s', hd, hlive, hperm, hlen⟩
    · obtain ⟨h1, h2, h3, h4⟩ := ih s
      simp only [consume, hd]
      refine ⟨h1, h2, ?_, h4⟩
      rw [h3, hempty]
      simp
    · obtain ⟨h1, h2, h3, h4⟩ := ih s'
      simp only [consume, hd, List.map_cons, List.cons_append, List.length_cons]
      refine ⟨?_, h2.trans hlive, ?_, ?_⟩
      · exact (h1.cons id).trans hperm.symm
      · rw [h3]; omega
      · omega

theorem is_queue_empty_iff (s : PatchScheduler) :
    is_queue_empty s = true ↔ s.queue = [] := by
  simp [is_queue_empty, PatchScheduler.is_empty, List.isEmpty_iff]

/-- C11 (scheduler coverage), on the scheduler modelled from the spec: after
`reset_queue()`, whatever the order in which the `dequeue` calls of the concurrent
consumers take effect and whichever enqueued id each call delivers, no patch id is
delivered twice; `is_queue_empty()` reports true exactly when as many ids have been
delivered as there are live patches, and then every live patch id has been dequeued
exactly once and nothing else has been delivered; and it does report true once the
consumers have made as many `dequeue` calls as there are live patches. -/
theorem scheduler_coverage (s : PatchScheduler) (events : List (Nat × Nat))
    (hlive : s.live.Nodup) :
    (∀ id, ((consume events (reset_queue s)).1.map Prod.snd).count id ≤ 1) ∧
    (is_queue_empty (consume events (reset_queue s)).2 = true ↔
      (consume events (reset_queue s)).1.length = s.live.length) ∧
    (is_queue_empty (consume events (reset_queue s)).2 = true →
      ((consume events (reset_queue s)).1.map Prod.snd).Perm s.live ∧
      (∀ id, id ∈ s.live → ((consume events (reset_queue s)).1.map Prod.snd).count id = 1) ∧
      (∀ id, id ∈ (consume events (reset_queue s)).1.map Prod.snd → id ∈ s.live)) ∧
    (s.live.length ≤ events.length →
      is_queue_empty (consume events (reset_queue s)).2 = true) := by
  obtain ⟨hperm, _, hlen, hsum⟩ := consume_conserves events (reset_queue s)
  have hq : (reset_queue s).queue = s.live := rfl
  rw [hq] at hperm hlen hsum
  refine ⟨?_, ?_, ?_, ?_⟩
  · intro id
    have h1 : (((consume events (reset_queue s)).1.map Prod.snd) ++
        (consume events (reset_queue s)).2.queue).count id = s.live.count id :=
      hperm.count_eq id
    have h2 := List.nodup_iff_count_le_one.1 hlive id
    rw [List.count_append] at h1
    omega
  · rw [is_queue_empty_iff]
    constructor
    · intro hempty
      rw [hempty] at hsum
      simpa using hsum
    · intro hall
      apply List.eq_nil_of_length_eq_zero
      omega
  · intro hempty
    rw [is_queue_empty_iff] at hempty
    rw [hempty, List.append_nil] at hperm
    refine ⟨hperm, ?_, ?_⟩
    · intro id hid
      rw [hperm.count_eq id]
      exact List.count_eq_one_of_mem hlive hid
    · intro id hid
      exact hperm.mem_iff.1 hid
  · intro hmany
    rw [is_queue_empty_iff]
    apply List.eq_nil_of_length_eq_zero
    omega

/-- Witness of C11: with live patches `0, 1, 2` and two consumers interleaved, the ids are
delivered in the order `2, 0, 1`, each once, and the queue then reports empty. -/
theorem scheduler_coverage_witness :
    (consume [(0, 5), (1, 0), (0, 7), (1, 1)] (reset_queue scheduler_3)).1 =
        [(0, 2), (1, 0), (0, 1)] ∧
    is_queue_empty (consume [(0, 5), (1, 0), (0, 7), (1, 1)] (reset_queue scheduler_3)).2 =
      true ∧
    ((consume [(0, 5), (1, 0), (0, 7), (1, 1)] (reset_queue scheduler_3)).1.map
      Prod.snd).Perm [0, 1, 2] :=
  ⟨by decide,
    (scheduler_coverage scheduler_3 [(0, 5), (1, 0), (0, 7), (1, 1)] (by decide)).2.2.2
      (by decide),
    ((scheduler_coverage scheduler_3 [(0, 5), (1, 0), (0, 7), (1, 1)] (by decide)).2.2.1
      (by decide)).1⟩

end rxmesh
